import Mathlib

/-!
Verification of the contiguous-memory allocator in
`src/memory_manager.c` / `src/memory_structures.c`.

The C linked list of `MemoryBlock` nodes is embedded as a `List` of block
records; every mutating C function becomes a pure function from the manager
state to a new state plus its `int` return value.  C `int` arithmetic is
modelled with `Int`; the one place where 32-bit overflow matters
(`nextPowerOf2`) wraps explicitly.  Pointer-based list surgery is expressed
positionally (the C code only ever splices at the node it found by
traversal).
-/

namespace MemSim

/-- Embedding of `struct MemoryBlock` (include/memory_structures.h).
The real-memory mirror fields `realPtr`/`realSize` carry no information the
claims mention beyond what `startAddress`/`size` already determine, so they
are not modelled. -/
structure MemoryBlock where
  isHole : Bool
  startAddress : Int
  endAddress : Int
  size : Int
  processID : Int
  blockID : Int
  buddyID : Int
  deriving DecidableEq, Repr

/-- Embedding of `struct MemoryManager` (include/memory_structures.h); the
linked list hanging off `head` becomes the field `blocks`. -/
structure MemoryManager where
  totalMemory : Int
  osMemory : Int
  userMemory : Int
  freeMemory : Int
  numProcesses : Int
  numHoles : Int
  processCounter : Int
  nextBlockID : Int
  useBuddySystem : Bool
  totalAllocations : Int
  totalDeallocations : Int
  totalCompactions : Int
  blocks : List MemoryBlock
  deriving DecidableEq, Repr

/-- Embedding of `createBlock` (memory_structures.c): the caller supplies the
fresh block id (the C code reads and bumps `mm->nextBlockID`; our callers
thread that counter explicitly). -/
def createBlock (nextID : Int) (isHole : Bool) (startAddr stopAddr pid : Int) :
    MemoryBlock :=
  { isHole := isHole
    startAddress := startAddr
    endAddress := stopAddr
    size := stopAddr - startAddr + 1
    processID := pid
    blockID := nextID
    buddyID := -1 }

/-- Embedding of `initializeMemory` (memory_manager.c): one free block
spanning the user suffix `[osMem, totalMem)`; `nextBlockID` starts at 1 and
the initial hole consumes id 1. -/
def initMemory (totalMem osMem : Int) : MemoryManager :=
  { totalMemory := totalMem
    osMemory := osMem
    userMemory := totalMem - osMem
    freeMemory := totalMem - osMem
    numProcesses := 0
    numHoles := 1
    processCounter := 0
    nextBlockID := 2
    useBuddySystem := false
    totalAllocations := 0
    totalDeallocations := 0
    totalCompactions := 0
    blocks := [createBlock 1 true osMem (totalMem - 1) (-1)] }

/-- The action firstFit/bestFit/worstFit all perform on the selected hole
(the C code duplicates this logic verbatim in the three functions): exact
fit flips the hole in place, otherwise the hole is split into the used block
plus a freshly created remainder hole.  Returns the replacement segment, the
next fresh block id, and the delta applied to `numHoles` (-1 on exact fit,
0 on split). -/
def allocSelected (nextID pid size : Int) (b : MemoryBlock) :
    List MemoryBlock × Int × Int :=
  if b.size = size then
    ([{ b with isHole := false, processID := pid }], nextID, -1)
  else
    let newStart := b.startAddress + size
    let oldEnd := b.endAddress
    let used := { b with endAddress := newStart - 1, size := size,
                         isHole := false, processID := pid }
    let newHole := createBlock nextID true newStart oldEnd (-1)
    ([used, newHole], nextID + 1, 0)

/-- Traversal core of `firstFit` (memory_manager.c): walk the list, take the
first hole with `size ≥` the request.  Returns the rewritten list, the start
address, the next fresh id and the `numHoles` delta, or `none` if no hole
fits. -/
def firstFitGo (nextID pid size : Int) :
    List MemoryBlock → Option (List MemoryBlock × Int × Int × Int)
  | [] => none
  | b :: rest =>
    if b.isHole = true ∧ size ≤ b.size then
      let r := allocSelected nextID pid size b
      some (r.1 ++ rest, b.startAddress, r.2.1, r.2.2)
    else
      match firstFitGo nextID pid size rest with
      | none => none
      | some (l, addr, nid, dh) => some (b :: l, addr, nid, dh)

/-- Embedding of `firstFit` (memory_manager.c) including its statistics
updates; returns the new state and the start address (or -1). -/
def firstFit (mm : MemoryManager) (pid size : Int) : MemoryManager × Int :=
  match firstFitGo mm.nextBlockID pid size mm.blocks with
  | none => (mm, -1)
  | some (l, addr, nid, dh) =>
    ({ mm with blocks := l, nextBlockID := nid,
               numHoles := mm.numHoles + dh,
               numProcesses := mm.numProcesses + 1,
               freeMemory := mm.freeMemory - size }, addr)

/-- Selection scan of `bestFit` (memory_manager.c): index of the suitable
hole of smallest size seen so far below the running minimum `minSize`
(`bestBlock` is updated only on a strict decrease, so ties keep the first
occurrence). -/
def bestFitPick (size : Int) : List MemoryBlock → Int → Option Nat
  | [], _ => none
  | b :: rest, minSize =>
    if b.isHole = true ∧ size ≤ b.size ∧ b.size < minSize then
      match bestFitPick size rest b.size with
      | some j => some (j + 1)
      | none => some 0
    else
      (bestFitPick size rest minSize).map (· + 1)

/-- Selection scan of `worstFit` (memory_manager.c): index of the suitable
hole of largest size (strict increase over the running maximum keeps the
first occurrence on ties). -/
def worstFitPick (size : Int) : List MemoryBlock → Int → Option Nat
  | [], _ => none
  | b :: rest, maxSize =>
    if b.isHole = true ∧ size ≤ b.size ∧ maxSize < b.size then
      match worstFitPick size rest b.size with
      | some j => some (j + 1)
      | none => some 0
    else
      (worstFitPick size rest maxSize).map (· + 1)

/-- Apply `allocSelected` to the block at index `i` (the block the best/worst
scan selected by pointer in the C code). -/
def allocAt (nextID pid size : Int) :
    List MemoryBlock → Nat → List MemoryBlock × Int × Int × Int
  | [], _ => ([], -1, nextID, 0)
  | b :: rest, 0 =>
    let r := allocSelected nextID pid size b
    (r.1 ++ rest, b.startAddress, r.2.1, r.2.2)
  | b :: rest, i + 1 =>
    let r := allocAt nextID pid size rest i
    (b :: r.1, r.2.1, r.2.2.1, r.2.2.2)

/-- Embedding of `bestFit` (memory_manager.c); the running minimum starts at
`totalMemory + 1`, the impossible value the C code uses. -/
def bestFit (mm : MemoryManager) (pid size : Int) : MemoryManager × Int :=
  match bestFitPick size mm.blocks (mm.totalMemory + 1) with
  | none => (mm, -1)
  | some i =>
    let r := allocAt mm.nextBlockID pid size mm.blocks i
    ({ mm with blocks := r.1, nextBlockID := r.2.2.1,
               numHoles := mm.numHoles + r.2.2.2,
               numProcesses := mm.numProcesses + 1,
               freeMemory := mm.freeMemory - size }, r.2.1)

/-- Embedding of `worstFit` (memory_manager.c); the running maximum starts
at -1. -/
def worstFit (mm : MemoryManager) (pid size : Int) : MemoryManager × Int :=
  match worstFitPick size mm.blocks (-1) with
  | none => (mm, -1)
  | some i =>
    let r := allocAt mm.nextBlockID pid size mm.blocks i
    ({ mm with blocks := r.1, nextBlockID := r.2.2.1,
               numHoles := mm.numHoles + r.2.2.2,
               numProcesses := mm.numProcesses + 1,
               freeMemory := mm.freeMemory - size }, r.2.1)

/-- Embedding of `AllocationAlgorithm` (memory_manager.h). -/
inductive AllocationAlgorithm where
  | FIRST_FIT
  | BEST_FIT
  | WORST_FIT
  deriving DecidableEq, Repr

/-- Embedding of `allocateMemory` (memory_manager.c): validates the size and
the aggregate free total, dispatches on the algorithm, and counts successful
allocations. -/
def allocateMemory (mm : MemoryManager) (pid size : Int)
    (algo : AllocationAlgorithm) : MemoryManager × Int :=
  if size ≤ 0 then (mm, -1)
  else if mm.freeMemory < size then (mm, -1)
  else
    let r :=
      match algo with
      | .FIRST_FIT => firstFit mm pid size
      | .BEST_FIT => bestFit mm pid size
      | .WORST_FIT => worstFit mm pid size
    if r.2 = -1 then r
    else ({ r.1 with totalAllocations := r.1.totalAllocations + 1 }, r.2)

/-- Intermediate result of the search/free/successor-merge phase of
`deallocateMemory`: `atHead` means the freed (and possibly
successor-merged) block heads the processed sublist, so the caller one level
up is its list predecessor and may absorb it; `deeper` means the match was
further down and the predecessor merge, if any, already happened. -/
inductive DeallocStep where
  | atHead (cur : MemoryBlock) (rest : List MemoryBlock)
      (freedSize merges : Int)
  | deeper (blocks : List MemoryBlock) (freedSize merges : Int)

/-- Lift a `DeallocStep` over the predecessor block `b`: when the freed
block heads the processed sublist, `b` is exactly the C `prev` pointer, so
if `b` is a hole it absorbs the freed block (the predecessor merge of
`deallocateMemory`); otherwise `b` is simply re-attached. -/
def deallocStepUp (b : MemoryBlock) : DeallocStep → DeallocStep
  | .atHead cur rest2 sz d =>
    if b.isHole = true then
      .deeper ({ b with endAddress := cur.endAddress,
                        size := cur.endAddress - b.startAddress + 1 }
                :: rest2) sz (d + 1)
    else
      .deeper (b :: cur :: rest2) sz d
  | .deeper l sz d => .deeper (b :: l) sz d

/-- Traversal core of `deallocateMemory` (memory_manager.c): find the first
used block with the given owner id, flip it to a hole, merge with the next
block if that is a hole, then (one recursion level up, via `deallocStepUp`)
merge with the previous block if that is a hole.  `freedSize` is the size of the block
before any merge (the C code adds it to `freeMemory` before merging) and
`merges` counts successful merges (each decrements `numHoles`). -/
def deallocGo (pid : Int) : List MemoryBlock → Option DeallocStep
  | [] => none
  | b :: rest =>
    if b.isHole = false ∧ b.processID = pid then
      let cur := { b with isHole := true, processID := -1 }
      match rest with
      | n :: rest2 =>
        if n.isHole = true then
          some (.atHead { cur with endAddress := n.endAddress,
                                   size := n.endAddress - cur.startAddress + 1 }
                  rest2 b.size 1)
        else
          some (.atHead cur (n :: rest2) b.size 0)
      | [] => some (.atHead cur [] b.size 0)
    else
      (deallocGo pid rest).map (deallocStepUp b)

/-- Reassemble the final list from a `DeallocStep`. -/
def DeallocStep.blocksOf : DeallocStep → List MemoryBlock
  | .atHead cur rest _ _ => cur :: rest
  | .deeper l _ _ => l

/-- Size of the freed block (before merges) recorded in a `DeallocStep`. -/
def DeallocStep.freedOf : DeallocStep → Int
  | .atHead _ _ sz _ => sz
  | .deeper _ sz _ => sz

/-- Number of hole merges recorded in a `DeallocStep`. -/
def DeallocStep.mergesOf : DeallocStep → Int
  | .atHead _ _ _ d => d
  | .deeper _ _ d => d

/-- Embedding of `deallocateMemory` (memory_manager.c); returns 1 on
success, 0 when no used block carries the owner id (in which case the state
is returned untouched, as in C where the loop falls off the list without
writing anything). -/
def deallocateMemory (mm : MemoryManager) (pid : Int) : MemoryManager × Int :=
  match deallocGo pid mm.blocks with
  | none => (mm, 0)
  | some step =>
    ({ mm with blocks := step.blocksOf,
               numProcesses := mm.numProcesses - 1,
               numHoles := mm.numHoles + 1 - step.mergesOf,
               freeMemory := mm.freeMemory + step.freedOf,
               totalDeallocations := mm.totalDeallocations + 1 }, 1)

/-- The Ledger invariant: the blocks, in list order, tile the address range
`[lo, hi)` exactly — each block starts where its predecessor ended plus one,
spans at least one unit, carries a consistent `size` field, and the last
block ends at `hi - 1`. -/
def chainedFrom (lo hi : Int) : List MemoryBlock → Bool
  | [] => lo == hi
  | b :: rest =>
    (b.startAddress == lo) &&
    (decide (b.startAddress ≤ b.endAddress)) &&
    (b.size == b.endAddress - b.startAddress + 1) &&
    chainedFrom (b.endAddress + 1) hi rest

/-- No two list-adjacent blocks are both holes (the standard-mode coalescing
invariant). -/
def noAdjacentFreePairs : List MemoryBlock → Bool
  | [] => true
  | [_] => true
  | a :: b :: rest =>
    (!(a.isHole && b.isHole)) && noAdjacentFreePairs (b :: rest)

/-- Hole status of the head block (`false` for the empty list). -/
def headHole : List MemoryBlock → Bool
  | [] => false
  | b :: _ => b.isHole

/-- Observer for claim C2: reading the pre-state, how many of the two
immediate neighbours of the first used block owned by `pid` are holes
(0, 1 or 2).  The boolean argument tracks whether the previous block in the
traversal is a hole. -/
def deallocFreeNeighbors (pid : Int) : Bool → List MemoryBlock → Int
  | _, [] => 0
  | prevHole, b :: rest =>
    if b.isHole = false ∧ b.processID = pid then
      (match rest with
       | n :: _ => if n.isHole = true then 1 else 0
       | [] => 0) + (if prevHole = true then 1 else 0)
    else
      deallocFreeNeighbors pid b.isHole rest

/-- A standard-mode client call: one `allocateMemory` or one
`deallocateMemory`. -/
inductive Op where
  | alloc (pid size : Int) (algo : AllocationAlgorithm)
  | dealloc (pid : Int)

/-- Run one operation, keeping the resulting state. -/
def runOp (mm : MemoryManager) : Op → MemoryManager
  | .alloc pid size algo => (allocateMemory mm pid size algo).1
  | .dealloc pid => (deallocateMemory mm pid).1

/-- Run a sequence of standard-mode operations. -/
def runOps (mm : MemoryManager) : List Op → MemoryManager
  | [] => mm
  | op :: ops => runOps (runOp mm op) ops

/-- Largest hole scan shared by `calculateFragmentation` and `getStatsJSON`
(memory_manager.c): running maximum over the hole sizes, floored at 0. -/
def largestHoleAux : Int → List MemoryBlock → Int
  | acc, [] => acc
  | acc, b :: rest =>
    largestHoleAux (if b.isHole = true ∧ acc < b.size then b.size else acc) rest

/-- Embedding of `calculateFragmentation` (memory_manager.c), computed
exactly over ℚ: `(freeMemory - largestHole) / userMemory * 100`, short-cut
to 0 when `freeMemory` is 0. -/
def calculateFragmentation (mm : MemoryManager) : ℚ :=
  if mm.freeMemory = 0 then 0
  else
    ((mm.freeMemory - largestHoleAux 0 mm.blocks : Int) : ℚ) /
      (mm.userMemory : ℚ) * 100

/-- The `(processID, size)` pairs of the used blocks in address order — the
snapshot `compact`, `convertToBuddySystem` and `revertFromBuddySystem` all
collect before rebuilding. -/
def collectProcs : List MemoryBlock → List (Int × Int)
  | [] => []
  | b :: rest =>
    if b.isHole = true then collectProcs rest
    else (b.processID, b.size) :: collectProcs rest

/-- Rebuild phase of `compact` (memory_manager.c): used blocks recreated
back to back from `addr`, consuming fresh block ids.  Returns the blocks,
the next fresh id and the address one past the last used block. -/
def rebuildUsed (nextID addr : Int) :
    List (Int × Int) → List MemoryBlock × Int × Int
  | [] => ([], nextID, addr)
  | (pid, sz) :: rest =>
    let b := createBlock nextID false addr (addr + sz - 1) pid
    let r := rebuildUsed (nextID + 1) (addr + sz) rest
    (b :: r.1, r.2.1, r.2.2)

/-- Embedding of `compact` (memory_manager.c): no-op (returning 0) with no
used blocks; otherwise rebuild the Ledger as the used blocks packed from
`osMemory` followed by one trailing hole when space remains.  The real
`memmove` mirror only moves backing bytes and is not modelled. -/
def compact (mm : MemoryManager) : MemoryManager × Int :=
  let procs := collectProcs mm.blocks
  if procs.length = 0 then (mm, 0)
  else
    let r := rebuildUsed mm.nextBlockID mm.osMemory procs
    let currentAddr := r.2.2
    let remainingSpace := mm.totalMemory - currentAddr
    if 0 < remainingSpace then
      let hole := createBlock r.2.1 true currentAddr (mm.totalMemory - 1) (-1)
      ({ mm with blocks := r.1 ++ [hole], nextBlockID := r.2.1 + 1,
                 numHoles := 1, numProcesses := (procs.length : Int),
                 freeMemory := remainingSpace,
                 totalCompactions := mm.totalCompactions + 1 }, 1)
    else
      ({ mm with blocks := r.1, nextBlockID := r.2.1,
                 numHoles := 0, numProcesses := (procs.length : Int),
                 freeMemory := remainingSpace,
                 totalCompactions := mm.totalCompactions + 1 }, 1)

/-- Embedding of `nextPowerOf2` (memory_manager.c) at C `int` semantics:
values ≤ 1 return 1; otherwise subtract one, smear the bits down with the
five or-shift stages, and increment.  The increment is the one operation
that can overflow a 32-bit int (when the original n exceeds 2^30); the
overflow is modelled as two's-complement wrap-around.  The five or-shift
stages are the helper `smearBits`. -/
def smearBits (m0 : Nat) : Nat :=
  let m1 := m0 ||| (m0 >>> 1)
  let m2 := m1 ||| (m1 >>> 2)
  let m3 := m2 ||| (m2 >>> 4)
  let m4 := m3 ||| (m3 >>> 8)
  m4 ||| (m4 >>> 16)

/-- Embedding of `nextPowerOf2` (continued): the shift cascade is
`smearBits`. -/
def nextPowerOf2 (n : Int) : Int :=
  if n ≤ 1 then 1
  else
    let r : Int := (smearBits (n - 1).toNat : Int) + 1
    if r < 2 ^ 31 then r else r - 2 ^ 32

/-- Result of the split loop of `buddyAllocate`: final target block, the
list tail (the created right halves stacked in front of the original tail),
next fresh id and number of splits performed. -/
structure SplitResult where
  target : MemoryBlock
  tail : List MemoryBlock
  nextID : Int
  splits : Int
  deriving DecidableEq, Repr

/-- Split loop of `buddyAllocate` (memory_manager.c): while the target is
strictly larger than the ceiling, halve it — the upper half becomes a fresh
free block inserted directly after the target, the two record each other as
buddies by id.  The C loop is bounded in practice by the halving; `fuel` is
an upper bound on the iterations (callers pass the block size). -/
def splitStep (t : MemoryBlock) (nid : Int) : MemoryBlock × MemoryBlock :=
  let halfSize := t.size / 2
  let buddy2 :=
    { createBlock nid true (t.startAddress + halfSize) t.endAddress (-1)
        with buddyID := t.blockID }
  ({ t with endAddress := t.startAddress + halfSize - 1,
            size := halfSize, buddyID := buddy2.blockID }, buddy2)

/-- Split loop of `buddyAllocate` (continued): `fuel` bounds the iterations
(callers pass the block size, which the halving can never exhaust). -/
def splitLoop (allocSize : Int) :
    Nat → MemoryBlock → List MemoryBlock → Int → SplitResult
  | 0, t, tail, nid => ⟨t, tail, nid, 0⟩
  | fuel + 1, t, tail, nid =>
    if allocSize < t.size then
      let p := splitStep t nid
      let r := splitLoop allocSize fuel p.1 (p.2 :: tail) (nid + 1)
      { r with splits := r.splits + 1 }
    else ⟨t, tail, nid, 0⟩

/-- Traversal core of `buddyAllocate`: first free block with size at least
the ceiling; split it down and flip it to used.  Returns the rewritten
list, start address, next fresh id, split count, and the final target size
(the amount subtracted from `freeMemory`). -/
def buddyAllocGo (allocSize pid nid : Int) :
    List MemoryBlock → Option (List MemoryBlock × Int × Int × Int × Int)
  | [] => none
  | b :: rest =>
    if b.isHole = true ∧ allocSize ≤ b.size then
      let r := splitLoop allocSize b.size.toNat b rest nid
      some ({ r.target with isHole := false, processID := pid } :: r.tail,
            r.target.startAddress, r.nextID, r.splits, r.target.size)
    else
      (buddyAllocGo allocSize pid nid rest).map
        fun q => (b :: q.1, q.2.1, q.2.2.1, q.2.2.2.1, q.2.2.2.2)

/-- Embedding of `buddyAllocate` (memory_manager.c).  Note the C function
performs no size validation and bumps `processCounter` before scanning, so
the counter advances even on failure. -/
def buddyAllocate (mm : MemoryManager) (size : Int) : MemoryManager × Int :=
  let allocSize := nextPowerOf2 size
  let pid := mm.processCounter + 1
  match buddyAllocGo allocSize pid mm.nextBlockID mm.blocks with
  | none => ({ mm with processCounter := pid }, -1)
  | some (l, addr, nid, splits, fsize) =>
    ({ mm with processCounter := pid, blocks := l, nextBlockID := nid,
               numHoles := mm.numHoles + splits - 1,
               numProcesses := mm.numProcesses + 1,
               freeMemory := mm.freeMemory - fsize,
               totalAllocations := mm.totalAllocations + 1 }, addr)

/-- Observer: the number of splits the `buddyAllocate` call performs (the
hole-count delta the C code applies before the final decrement). -/
def buddyAllocateSplits (mm : MemoryManager) (size : Int) : Int :=
  match buddyAllocGo (nextPowerOf2 size) (mm.processCounter + 1)
      mm.nextBlockID mm.blocks with
  | none => 0
  | some (_, _, _, splits, _) => splits

/-- First block (with its index) whose `blockID` matches, scanning from the
head — the buddy lookup loop inside `buddyDeallocate`. -/
def findBuddy (bid : Int) : List MemoryBlock → Option (Nat × MemoryBlock)
  | [] => none
  | b :: rest =>
    if b.blockID = bid then some (0, b)
    else (findBuddy bid rest).map fun q => (q.1 + 1, q.2)

/-- Merge the blocks at indices `i` and `j` (both in bounds by
construction): the lower-addressed one absorbs the other's span, clears its
buddy link, and the other is unlinked — the pointer surgery of
`buddyDeallocate` expressed positionally. -/
def mergeAt (blocks : List MemoryBlock) (i j : Nat) : List MemoryBlock :=
  match blocks[i]?, blocks[j]? with
  | some bi, some bj =>
    let fpos := if bi.startAddress < bj.startAddress then i else j
    let spos := if bi.startAddress < bj.startAddress then j else i
    let fb := if bi.startAddress < bj.startAddress then bi else bj
    let sb := if bi.startAddress < bj.startAddress then bj else bi
    let fb' := { fb with endAddress := sb.endAddress,
                         size := sb.endAddress - fb.startAddress + 1,
                         buddyID := -1 }
    (blocks.set fpos fb').eraseIdx spos
  | _, _ => blocks

/-- One pass of the `buddyDeallocate` merge scan: the first (in list order)
free block with a recorded buddy id whose buddy is present and free, paired
with that buddy's index. -/
def mergeCandidateGo (blocks : List MemoryBlock) :
    Nat → List MemoryBlock → Option (Nat × Nat)
  | _, [] => none
  | i, b :: rest =>
    if b.isHole = true ∧ b.buddyID ≠ -1 then
      match findBuddy b.buddyID blocks with
      | some (j, buddy) =>
        if buddy.isHole = true then some (i, j)
        else mergeCandidateGo blocks (i + 1) rest
      | none => mergeCandidateGo blocks (i + 1) rest
    else mergeCandidateGo blocks (i + 1) rest

/-- One pass of the merge loop: `some` rewritten list when a merge fired,
`none` when a full scan produced no merge. -/
def mergeScan (blocks : List MemoryBlock) : Option (List MemoryBlock) :=
  (mergeCandidateGo blocks 0 blocks).map fun q => mergeAt blocks q.1 q.2

/-- The scan-and-restart merge loop of `buddyDeallocate`, with fuel (each
merge removes a block, so `blocks.length` fuel always reaches the
fixpoint).  Also counts the merges performed. -/
def mergeLoop : Nat → List MemoryBlock → List MemoryBlock × Int
  | 0, l => (l, 0)
  | fuel + 1, l =>
    match mergeScan l with
    | none => (l, 0)
    | some l' =>
      let r := mergeLoop fuel l'
      (r.1, r.2 + 1)

/-- Search/flip phase of `buddyDeallocate`: first used block with the owner
id becomes a hole; returns the new list and that block's size. -/
def buddyDeallocGo (pid : Int) :
    List MemoryBlock → Option (List MemoryBlock × Int)
  | [] => none
  | b :: rest =>
    if b.isHole = false ∧ b.processID = pid then
      some ({ b with isHole := true, processID := -1 } :: rest, b.size)
    else
      (buddyDeallocGo pid rest).map fun q => (b :: q.1, q.2)

/-- Embedding of `buddyDeallocate` (memory_manager.c): flip the owner's
block to free, then run the merge loop to a fixpoint; each merge decrements
the hole count. -/
def buddyDeallocate (mm : MemoryManager) (pid : Int) : MemoryManager × Int :=
  match buddyDeallocGo pid mm.blocks with
  | none => (mm, 0)
  | some (l, sz) =>
    let r := mergeLoop l.length l
    ({ mm with blocks := r.1,
               numProcesses := mm.numProcesses - 1,
               numHoles := mm.numHoles + 1 - r.2,
               freeMemory := mm.freeMemory + sz,
               totalDeallocations := mm.totalDeallocations + 1 }, 1)

/-- Number of holes in a block list. -/
def countFree (blocks : List MemoryBlock) : Nat :=
  (blocks.filter (fun b => b.isHole)).length

/-- The doubling loop of `convertToBuddySystem` computing the buddy region
size: double from 1 until at least `user`, then halve once if it
overshot. -/
def buddySizeLoop : Nat → Int → Int → Int
  | 0, bs, _ => bs
  | f + 1, bs, user => if bs < user then buddySizeLoop f (bs * 2) user else bs

/-- Buddy region size chosen by `convertToBuddySystem`: the largest power of
two not exceeding the user memory. -/
def computeBuddySize (user : Int) : Int :=
  let bs := buddySizeLoop user.toNat 1 user
  if user < bs then bs / 2 else bs

/-- Replay phase of `convertToBuddySystem`: each saved `(pid, size)` pair is
re-placed through `buddyAllocate`, with `processCounter` forced so the
auto-assigned id matches the saved one. -/
def replayBuddy (mm : MemoryManager) : List (Int × Int) → MemoryManager
  | [] => mm
  | (pid, sz) :: rest =>
    replayBuddy (buddyAllocate { mm with processCounter := pid - 1 } sz).1 rest

/-- Embedding of `convertToBuddySystem` (memory_manager.c): snapshot the
used blocks, rebuild the Ledger as one free block of the buddy size, and
replay the snapshot through `buddyAllocate`. -/
def convertToBuddySystem (mm : MemoryManager) : MemoryManager :=
  let saved := collectProcs mm.blocks
  let buddySize := computeBuddySize mm.userMemory
  let head := createBlock mm.nextBlockID true mm.osMemory
      (mm.osMemory + buddySize - 1) (-1)
  let mm1 := { mm with useBuddySystem := true, numProcesses := 0,
                       numHoles := 1, freeMemory := buddySize,
                       processCounter := 0,
                       nextBlockID := mm.nextBlockID + 1,
                       blocks := [head] }
  replayBuddy mm1 saved

/-- Merge absorption: the surviving (lower) block takes the absorbed
block's end address, recomputes its size, and clears its buddy link. -/
def absorb (a b : MemoryBlock) : MemoryBlock :=
  { a with endAddress := b.endAddress,
           size := b.endAddress - a.startAddress + 1,
           buddyID := -1 }

/-- The shape `buddyAllocate` leaves behind a (possibly merged) target `t`:
each successive block is free, adjacent, points back at `t`'s id as its
buddy, and has a distinct non-sentinel id; the reference block for the next
link is the absorption of all previous ones. -/
def buddyChainRel (t : MemoryBlock) : List MemoryBlock → Prop
  | [] => True
  | c :: rest =>
    c.isHole = true ∧ c.buddyID = t.blockID ∧ c.blockID ≠ t.blockID ∧
    c.blockID ≠ -1 ∧ t.endAddress + 1 = c.startAddress ∧
    c.startAddress ≤ c.endAddress ∧ buddyChainRel (absorb t c) rest

/-! ## Basic consequences of the tiling invariant -/

theorem chainedFrom_nil {lo hi : Int} :
    chainedFrom lo hi [] = true ↔ lo = hi := by
  simp [chainedFrom]

theorem chainedFrom_cons {lo hi : Int} {b : MemoryBlock}
    {rest : List MemoryBlock} :
    chainedFrom lo hi (b :: rest) = true ↔
      b.startAddress = lo ∧ b.startAddress ≤ b.endAddress ∧
      b.size = b.endAddress - b.startAddress + 1 ∧
      chainedFrom (b.endAddress + 1) hi rest = true := by
  simp [chainedFrom, and_assoc]

theorem chainedFrom_le :
    ∀ (l : List MemoryBlock) (lo hi : Int),
      chainedFrom lo hi l = true → lo ≤ hi := by
  intro l
  induction l with
  | nil => intro lo hi h; rw [chainedFrom_nil] at h; omega
  | cons b rest ih =>
    intro lo hi h
    rw [chainedFrom_cons] at h
    have := ih (b.endAddress + 1) hi h.2.2.2
    omega

theorem chainedFrom_mem_bounds :
    ∀ (l : List MemoryBlock) (lo hi : Int),
      chainedFrom lo hi l = true →
      ∀ b ∈ l, lo ≤ b.startAddress ∧ b.startAddress ≤ b.endAddress ∧
        b.endAddress < hi ∧ b.size = b.endAddress - b.startAddress + 1 := by
  intro l
  induction l with
  | nil => intro lo hi _ b hb; simp at hb
  | cons c rest ih =>
    intro lo hi h b hb
    rw [chainedFrom_cons] at h
    obtain ⟨h1, h2, h3, h4⟩ := h
    rcases List.mem_cons.1 hb with hb | hb
    · subst hb
      have := chainedFrom_le rest (b.endAddress + 1) hi h4
      omega
    · have := ih (c.endAddress + 1) hi h4 b hb
      omega

theorem chainedFrom_chain' :
    ∀ (l : List MemoryBlock) (lo hi : Int),
      chainedFrom lo hi l = true →
      List.Chain' (fun a b => a.endAddress + 1 = b.startAddress) l := by
  intro l
  induction l with
  | nil => intro lo hi _; exact List.chain'_nil
  | cons b rest ih =>
    intro lo hi h
    rw [chainedFrom_cons] at h
    cases rest with
    | nil => simp
    | cons c rest2 =>
      refine List.Chain'.cons ?_ (ih (b.endAddress + 1) hi h.2.2.2)
      rw [chainedFrom_cons] at h
      exact (h.2.2.2 : _ ∧ _).1.symm ▸ rfl

theorem chainedFrom_pairwise :
    ∀ (l : List MemoryBlock) (lo hi : Int),
      chainedFrom lo hi l = true →
      List.Pairwise (fun a b => a.endAddress < b.startAddress) l := by
  intro l
  induction l with
  | nil => intro lo hi _; exact List.Pairwise.nil
  | cons b rest ih =>
    intro lo hi h
    rw [chainedFrom_cons] at h
    refine List.Pairwise.cons ?_ (ih (b.endAddress + 1) hi h.2.2.2)
    intro c hc
    have := chainedFrom_mem_bounds rest (b.endAddress + 1) hi h.2.2.2 c hc
    omega

theorem chainedFrom_cover :
    ∀ (l : List MemoryBlock) (lo hi : Int),
      chainedFrom lo hi l = true →
      ∀ a : Int, (lo ≤ a ∧ a < hi) ↔
        ∃ b ∈ l, b.startAddress ≤ a ∧ a ≤ b.endAddress := by
  intro l
  induction l with
  | nil =>
    intro lo hi h a
    rw [chainedFrom_nil] at h
    subst h
    simp
  | cons b rest ih =>
    intro lo hi h a
    rw [chainedFrom_cons] at h
    obtain ⟨h1, h2, h3, h4⟩ := h
    have hrest := ih (b.endAddress + 1) hi h4 a
    have hhi := chainedFrom_le rest (b.endAddress + 1) hi h4
    constructor
    · rintro ⟨ha1, ha2⟩
      by_cases hcase : a ≤ b.endAddress
      · exact ⟨b, List.mem_cons_self _ _, by omega, hcase⟩
      · obtain ⟨c, hc1, hc2⟩ := hrest.1 ⟨by omega, ha2⟩
        exact ⟨c, List.mem_cons_of_mem _ hc1, hc2⟩
    · rintro ⟨c, hc1, hc2, hc3⟩
      rcases List.mem_cons.1 hc1 with hc | hc
      · subst hc; omega
      · have := hrest.2 ⟨c, hc, hc2, hc3⟩
        omega

/-! ## The placement operations preserve the tiling invariant -/

theorem allocSelected_chained {lo hi nextID pid size : Int} {b : MemoryBlock}
    {rest : List MemoryBlock}
    (hch : chainedFrom lo hi (b :: rest) = true)
    (hsz : 1 ≤ size) (hle : size ≤ b.size) :
    chainedFrom lo hi ((allocSelected nextID pid size b).1 ++ rest) = true := by
  rw [chainedFrom_cons] at hch
  obtain ⟨h1, h2, h3, h4⟩ := hch
  unfold allocSelected
  by_cases hexact : b.size = size
  · rw [if_pos hexact]
    simp only [List.cons_append, List.nil_append, chainedFrom_cons]
    exact ⟨h1, h2, h3, h4⟩
  · rw [if_neg hexact]
    simp only [List.cons_append, List.nil_append, chainedFrom_cons, createBlock]
    exact ⟨h1, by omega, by omega, by omega, by omega, trivial, h4⟩

theorem firstFitGo_chained {nextID pid size hi : Int} (hsz : 1 ≤ size) :
    ∀ (blocks : List MemoryBlock) (lo : Int)
      (res : List MemoryBlock × Int × Int × Int),
      firstFitGo nextID pid size blocks = some res →
      chainedFrom lo hi blocks = true →
      chainedFrom lo hi res.1 = true := by
  intro blocks
  induction blocks with
  | nil => intro lo res h; simp [firstFitGo] at h
  | cons b rest ih =>
    intro lo res h hch
    rw [firstFitGo] at h
    split at h
    case isTrue hg =>
      obtain ⟨rfl⟩ := Option.some.inj h
      exact allocSelected_chained hch hsz hg.2
    case isFalse hg =>
      cases hrec : firstFitGo nextID pid size rest with
      | none => rw [hrec] at h; exact absurd h (by simp)
      | some q =>
        rw [hrec] at h
        obtain ⟨l0, addr0, nid0, dh0⟩ := q
        obtain ⟨rfl⟩ := Option.some.inj h
        rw [chainedFrom_cons] at hch ⊢
        exact ⟨hch.1, hch.2.1, hch.2.2.1,
          ih (b.endAddress + 1) (l0, addr0, nid0, dh0) hrec hch.2.2.2⟩

theorem allocAt_chained {nextID pid size hi : Int} (hsz : 1 ≤ size) :
    ∀ (blocks : List MemoryBlock) (i : Nat) (lo : Int)
      (hlt : i < blocks.length),
      chainedFrom lo hi blocks = true →
      blocks[i].isHole = true →
      size ≤ blocks[i].size →
      chainedFrom lo hi (allocAt nextID pid size blocks i).1 = true := by
  intro blocks
  induction blocks with
  | nil => intro i lo hlt; simp at hlt
  | cons b rest ih =>
    intro i lo hlt hch hhole hle
    cases i with
    | zero =>
      simpa [allocAt] using allocSelected_chained hch hsz hle
    | succ j =>
      rw [chainedFrom_cons] at hch
      simp only [allocAt]
      rw [chainedFrom_cons]
      refine ⟨hch.1, hch.2.1, hch.2.2.1, ?_⟩
      exact ih j (b.endAddress + 1) (by simpa using hlt) hch.2.2.2
        (by simpa using hhole) (by simpa using hle)

theorem allocAt_addr {nextID pid size : Int} :
    ∀ (blocks : List MemoryBlock) (i : Nat) (hlt : i < blocks.length),
      (allocAt nextID pid size blocks i).2.1 =
        blocks[i].startAddress := by
  intro blocks
  induction blocks with
  | nil => intro i hlt; simp at hlt
  | cons b rest ih =>
    intro i hlt
    cases i with
    | zero => simp [allocAt]
    | succ j => simpa [allocAt] using ih j (by simpa using hlt)

theorem bestFitPick_none {size : Int} :
    ∀ (blocks : List MemoryBlock) (minSize : Int),
      bestFitPick size blocks minSize = none →
      ∀ b ∈ blocks, ¬(b.isHole = true ∧ size ≤ b.size ∧ b.size < minSize) := by
  intro blocks
  induction blocks with
  | nil => intro minSize _ b hb; simp at hb
  | cons c rest ih =>
    intro minSize h b hb
    rw [bestFitPick] at h
    split at h
    case isTrue hg =>
      cases hrec : bestFitPick size rest c.size <;> rw [hrec] at h <;> simp at h
    case isFalse hg =>
      rcases List.mem_cons.1 hb with hb | hb
      · subst hb; exact hg
      · cases hrec : bestFitPick size rest minSize with
        | none => exact ih minSize hrec b hb
        | some j => rw [hrec] at h; simp at h

/-- Full characterization of the best-fit scan: the returned index denotes a
suitable hole strictly below the running minimum, of size no larger than any
suitable hole anywhere and strictly smaller than any earlier suitable
hole. -/
theorem bestFitPick_spec {size : Int} :
    ∀ (blocks : List MemoryBlock) (minSize : Int) (i : Nat),
      bestFitPick size blocks minSize = some i →
      ∃ hlt : i < blocks.length,
        blocks[i].isHole = true ∧
        size ≤ blocks[i].size ∧
        blocks[i].size < minSize ∧
        (∀ (j : Nat) (hj : j < blocks.length),
          blocks[j].isHole = true → size ≤ blocks[j].size →
          blocks[i].size ≤ blocks[j].size) ∧
        (∀ (j : Nat) (hj : j < blocks.length), j < i →
          blocks[j].isHole = true → size ≤ blocks[j].size →
          blocks[i].size < blocks[j].size) := by
  intro blocks
  induction blocks with
  | nil => intro minSize i h; simp [bestFitPick] at h
  | cons c rest ih =>
    intro minSize i h
    rw [bestFitPick] at h
    split at h
    case isTrue hg =>
      cases hrec : bestFitPick size rest c.size with
      | some j =>
        rw [hrec] at h
        obtain ⟨rfl⟩ := Option.some.inj h
        obtain ⟨hlt, hp1, hp2, hp3, hp4, hp5⟩ := ih c.size j hrec
        refine ⟨by simpa using Nat.succ_lt_succ hlt, by simpa using hp1,
          by simpa using hp2, by simp; omega, ?_, ?_⟩
        · intro k hk hk1 hk2
          cases k with
          | zero => simp at hk1 hk2 ⊢; omega
          | succ k' =>
            have := hp4 k' (by simpa using hk) (by simpa using hk1)
              (by simpa using hk2)
            simpa using this
        · intro k hk hklt hk1 hk2
          cases k with
          | zero => simp at hk1 hk2 ⊢; omega
          | succ k' =>
            have := hp5 k' (by simpa using hk) (by omega)
              (by simpa using hk1) (by simpa using hk2)
            simpa using this
      | none =>
        rw [hrec] at h
        obtain ⟨rfl⟩ := Option.some.inj h
        have hnone := bestFitPick_none rest c.size hrec
        refine ⟨by simp, by simpa using hg.1, by simpa using hg.2.1,
          by simpa using hg.2.2, ?_, ?_⟩
        · intro k hk hk1 hk2
          cases k with
          | zero => simp
          | succ k' =>
            have hk' : k' < rest.length := by simpa using hk
            have := hnone rest[k'] (List.getElem_mem hk')
            simp only [List.getElem_cons_succ, List.getElem_cons_zero] at hk1 hk2 ⊢
            push_neg at this
            exact this hk1 hk2
        · intro k hk hklt _ _; omega
    case isFalse hg =>
      cases hrec : bestFitPick size rest minSize with
      | none => rw [hrec] at h; simp at h
      | some j =>
        rw [hrec] at h
        simp only [Option.map_some'] at h
        obtain ⟨rfl⟩ := Option.some.inj h
        obtain ⟨hlt, hp1, hp2, hp3, hp4, hp5⟩ := ih minSize j hrec
        refine ⟨by simpa using Nat.succ_lt_succ hlt, by simpa using hp1,
          by simpa using hp2, by simpa using hp3, ?_, ?_⟩
        · intro k hk hk1 hk2
          cases k with
          | zero =>
            simp only [List.getElem_cons_zero] at hk1 hk2
            simp only [List.getElem_cons_succ, List.getElem_cons_zero]
            by_cases hc : c.size < minSize
            · exact absurd ⟨hk1, hk2, hc⟩ hg
            · omega
          | succ k' =>
            have := hp4 k' (by simpa using hk) (by simpa using hk1)
              (by simpa using hk2)
            simpa using this
        · intro k hk hklt hk1 hk2
          cases k with
          | zero =>
            simp only [List.getElem_cons_zero] at hk1 hk2
            simp only [List.getElem_cons_succ, List.getElem_cons_zero]
            by_cases hc : c.size < minSize
            · exact absurd ⟨hk1, hk2, hc⟩ hg
            · omega
          | succ k' =>
            have := hp5 k' (by simpa using hk) (by omega)
              (by simpa using hk1) (by simpa using hk2)
            simpa using this

theorem worstFitPick_suitable {size : Int} :
    ∀ (blocks : List MemoryBlock) (maxSize : Int) (i : Nat),
      worstFitPick size blocks maxSize = some i →
      ∃ hlt : i < blocks.length,
        blocks[i].isHole = true ∧
        size ≤ blocks[i].size := by
  intro blocks
  induction blocks with
  | nil => intro maxSize i h; simp [worstFitPick] at h
  | cons c rest ih =>
    intro maxSize i h
    rw [worstFitPick] at h
    split at h
    case isTrue hg =>
      cases hrec : worstFitPick size rest c.size with
      | some j =>
        rw [hrec] at h
        obtain ⟨rfl⟩ := Option.some.inj h
        obtain ⟨hlt, hp1, hp2⟩ := ih c.size j hrec
        exact ⟨by simpa using Nat.succ_lt_succ hlt, by simpa using hp1,
          by simpa using hp2⟩
      | none =>
        rw [hrec] at h
        obtain ⟨rfl⟩ := Option.some.inj h
        exact ⟨by simp, by simpa using hg.1, by simpa using hg.2.1⟩
    case isFalse hg =>
      cases hrec : worstFitPick size rest maxSize with
      | none => rw [hrec] at h; simp at h
      | some j =>
        rw [hrec] at h
        simp only [Option.map_some'] at h
        obtain ⟨rfl⟩ := Option.some.inj h
        obtain ⟨hlt, hp1, hp2⟩ := ih maxSize j hrec
        exact ⟨by simpa using Nat.succ_lt_succ hlt, by simpa using hp1,
          by simpa using hp2⟩

/-! ## Deallocation preserves the tiling invariant -/

theorem deallocGo_chained {pid hi : Int} :
    ∀ (blocks : List MemoryBlock) (lo : Int) (step : DeallocStep),
      deallocGo pid blocks = some step →
      chainedFrom lo hi blocks = true →
      chainedFrom lo hi step.blocksOf = true := by
  intro blocks
  induction blocks with
  | nil => intro lo step h; simp [deallocGo] at h
  | cons b rest ih =>
    intro lo step h hch
    rw [chainedFrom_cons] at hch
    obtain ⟨h1, h2, h3, h4⟩ := hch
    by_cases hg : b.isHole = false ∧ b.processID = pid
    · cases rest with
      | nil =>
        simp only [deallocGo, if_pos hg] at h
        obtain ⟨rfl⟩ := Option.some.inj h
        simp only [DeallocStep.blocksOf]
        rw [chainedFrom_cons]
        exact ⟨h1, h2, h3, h4⟩
      | cons n rest2 =>
        rw [chainedFrom_cons] at h4
        obtain ⟨h5, h6, h7, h8⟩ := h4
        simp only [deallocGo, if_pos hg] at h
        by_cases hn : n.isHole = true
        · rw [if_pos hn] at h
          obtain ⟨rfl⟩ := Option.some.inj h
          simp only [DeallocStep.blocksOf]
          rw [chainedFrom_cons]
          refine ⟨h1, ?_, by simp, by simpa using h8⟩
          show b.startAddress ≤ n.endAddress
          omega
        · rw [if_neg hn] at h
          obtain ⟨rfl⟩ := Option.some.inj h
          simp only [DeallocStep.blocksOf]
          rw [chainedFrom_cons, chainedFrom_cons]
          exact ⟨h1, h2, h3, h5, h6, h7, h8⟩
    · cases hrec : deallocGo pid rest with
      | none => simp [deallocGo, if_neg hg, hrec] at h
      | some step2 =>
        simp only [deallocGo, if_neg hg, hrec, Option.map_some'] at h
        have hrest := ih (b.endAddress + 1) step2 hrec h4
        cases step2 with
        | atHead cur rest2 sz d =>
          simp only [DeallocStep.blocksOf] at hrest
          rw [chainedFrom_cons] at hrest
          obtain ⟨g1, g2, g3, g4⟩ := hrest
          by_cases hb : b.isHole = true
          · simp only [deallocStepUp, if_pos hb] at h
            obtain ⟨rfl⟩ := Option.some.inj h
            simp only [DeallocStep.blocksOf]
            rw [chainedFrom_cons]
            refine ⟨h1, ?_, by simp, by simpa using g4⟩
            show b.startAddress ≤ cur.endAddress
            omega
          · simp only [deallocStepUp, if_neg hb] at h
            obtain ⟨rfl⟩ := Option.some.inj h
            simp only [DeallocStep.blocksOf]
            rw [chainedFrom_cons, chainedFrom_cons]
            exact ⟨h1, h2, h3, g1, g2, g3, g4⟩
        | deeper l sz d =>
          simp only [deallocStepUp] at h
          obtain ⟨rfl⟩ := Option.some.inj h
          simp only [DeallocStep.blocksOf] at hrest ⊢
          rw [chainedFrom_cons]
          exact ⟨h1, h2, h3, hrest⟩

/-! ## Claim C1: the invariant holds along every standard-mode run -/

theorem runOp_fields (mm : MemoryManager) (op : Op) :
    (runOp mm op).osMemory = mm.osMemory ∧
    (runOp mm op).totalMemory = mm.totalMemory := by
  cases op with
  | alloc pid size algo =>
    cases algo <;>
      (simp only [runOp, allocateMemory, firstFit, bestFit, worstFit]
       repeat' split
       all_goals simp)
  | dealloc pid =>
    simp only [runOp, deallocateMemory]
    repeat' split
    all_goals simp

theorem runOp_chained (mm : MemoryManager) (op : Op)
    (hch : chainedFrom mm.osMemory mm.totalMemory mm.blocks = true) :
    chainedFrom mm.osMemory mm.totalMemory (runOp mm op).blocks = true := by
  cases op with
  | alloc pid size algo =>
    simp only [runOp, allocateMemory]
    split
    case isTrue => exact hch
    case isFalse hpos =>
    split
    case isTrue => exact hch
    case isFalse hcap =>
    have hsz : 1 ≤ size := by omega
    split
    case isTrue =>
      cases algo with
      | FIRST_FIT =>
        simp only [firstFit]
        cases hgo : firstFitGo mm.nextBlockID pid size mm.blocks with
        | none => simpa using hch
        | some q =>
          simpa using firstFitGo_chained hsz mm.blocks mm.osMemory q hgo hch
      | BEST_FIT =>
        simp only [bestFit]
        cases hpick : bestFitPick size mm.blocks (mm.totalMemory + 1) with
        | none => simpa using hch
        | some i =>
          obtain ⟨hlt, hp1, hp2, _⟩ := bestFitPick_spec mm.blocks _ i hpick
          simpa using allocAt_chained hsz mm.blocks i mm.osMemory hlt hch hp1 hp2
      | WORST_FIT =>
        simp only [worstFit]
        cases hpick : worstFitPick size mm.blocks (-1) with
        | none => simpa using hch
        | some i =>
          obtain ⟨hlt, hp1, hp2⟩ := worstFitPick_suitable mm.blocks _ i hpick
          simpa using allocAt_chained hsz mm.blocks i mm.osMemory hlt hch hp1 hp2
    case isFalse =>
      cases algo with
      | FIRST_FIT =>
        simp only [firstFit]
        cases hgo : firstFitGo mm.nextBlockID pid size mm.blocks with
        | none => simpa using hch
        | some q =>
          simpa using firstFitGo_chained hsz mm.blocks mm.osMemory q hgo hch
      | BEST_FIT =>
        simp only [bestFit]
        cases hpick : bestFitPick size mm.blocks (mm.totalMemory + 1) with
        | none => simpa using hch
        | some i =>
          obtain ⟨hlt, hp1, hp2, _⟩ := bestFitPick_spec mm.blocks _ i hpick
          simpa using allocAt_chained hsz mm.blocks i mm.osMemory hlt hch hp1 hp2
      | WORST_FIT =>
        simp only [worstFit]
        cases hpick : worstFitPick size mm.blocks (-1) with
        | none => simpa using hch
        | some i =>
          obtain ⟨hlt, hp1, hp2⟩ := worstFitPick_suitable mm.blocks _ i hpick
          simpa using allocAt_chained hsz mm.blocks i mm.osMemory hlt hch hp1 hp2
  | dealloc pid =>
    simp only [runOp, deallocateMemory]
    cases hgo : deallocGo pid mm.blocks with
    | none => simpa using hch
    | some step =>
      simpa using deallocGo_chained mm.blocks mm.osMemory step hgo hch

theorem runOps_chained (ops : List Op) :
    ∀ (mm : MemoryManager),
      chainedFrom mm.osMemory mm.totalMemory mm.blocks = true →
      chainedFrom mm.osMemory mm.totalMemory (runOps mm ops).blocks = true ∧
      (runOps mm ops).osMemory = mm.osMemory ∧
      (runOps mm ops).totalMemory = mm.totalMemory := by
  induction ops with
  | nil => intro mm hch; exact ⟨hch, rfl, rfl⟩
  | cons op ops ih =>
    intro mm hch
    have hf := runOp_fields mm op
    have hstep : chainedFrom (runOp mm op).osMemory (runOp mm op).totalMemory
        (runOp mm op).blocks = true := by
      rw [hf.1, hf.2]; exact runOp_chained mm op hch
    have := ih (runOp mm op) hstep
    simp only [runOps]
    exact ⟨by rw [hf.1, hf.2] at this; exact this.1,
      by rw [this.2.1, hf.1], by rw [this.2.2, hf.2]⟩

theorem initMemory_chained {totalMem osMem : Int} (h : osMem < totalMem) :
    chainedFrom osMem totalMem (initMemory totalMem osMem).blocks = true := by
  simp only [initMemory, createBlock]
  rw [chainedFrom_cons]
  refine ⟨rfl, ?_, rfl, ?_⟩
  · show osMem ≤ totalMem - 1
    omega
  · rw [chainedFrom_nil]
    show totalMem - 1 + 1 = totalMem
    omega

/-- Claim C1: from an initialized manager, any sequence of standard-mode
allocate (any strategy, via `allocateMemory`) and deallocate calls keeps
the Ledger a tiling of the user suffix `[osMem, totalMem)`: the blocks are
in strictly increasing address order, pairwise non-overlapping, and their
spans cover exactly `[osMem, totalMem)`. -/
theorem claim1_ledger_invariant (totalMem osMem : Int) (ops : List Op)
    (hinit : osMem < totalMem) :
    chainedFrom osMem totalMem (runOps (initMemory totalMem osMem) ops).blocks
        = true ∧
    List.Pairwise (fun a b => a.endAddress < b.startAddress)
      (runOps (initMemory totalMem osMem) ops).blocks ∧
    List.Chain' (fun a b => a.endAddress + 1 = b.startAddress)
      (runOps (initMemory totalMem osMem) ops).blocks ∧
    ∀ a : Int, (osMem ≤ a ∧ a < totalMem) ↔
      ∃ b ∈ (runOps (initMemory totalMem osMem) ops).blocks,
        b.startAddress ≤ a ∧ a ≤ b.endAddress := by
  have h0 := initMemory_chained hinit
  have h0' : chainedFrom (initMemory totalMem osMem).osMemory
      (initMemory totalMem osMem).totalMemory
      (initMemory totalMem osMem).blocks = true := h0
  have hrun := runOps_chained ops (initMemory totalMem osMem) h0'
  have hch : chainedFrom osMem totalMem
      (runOps (initMemory totalMem osMem) ops).blocks = true := hrun.1
  exact ⟨hch, chainedFrom_pairwise _ _ _ hch, chainedFrom_chain' _ _ _ hch,
    chainedFrom_cover _ _ _ hch⟩

/-! ## Claim C2: eager coalescing on deallocate -/

theorem noAdj_cons {a : MemoryBlock} {l : List MemoryBlock} :
    noAdjacentFreePairs (a :: l) = true ↔
      (headHole l = true → a.isHole = false) ∧
      noAdjacentFreePairs l = true := by
  cases l with
  | nil => simp [noAdjacentFreePairs, headHole]
  | cons b rest =>
    simp only [noAdjacentFreePairs, headHole, Bool.and_eq_true,
      Bool.not_eq_true', Bool.and_eq_false_iff]
    constructor
    · rintro ⟨h1, h2⟩
      refine ⟨?_, h2⟩
      intro hb
      rcases h1 with h | h
      · exact h
      · exact absurd hb (by simp [h])
    · rintro ⟨h1, h2⟩
      refine ⟨?_, h2⟩
      by_cases hb : b.isHole = true
      · exact Or.inl (h1 hb)
      · exact Or.inr (by simpa using hb)

theorem deallocGo_noAdj {pid : Int} :
    ∀ (blocks : List MemoryBlock) (step : DeallocStep),
      deallocGo pid blocks = some step →
      noAdjacentFreePairs blocks = true →
      noAdjacentFreePairs step.blocksOf = true ∧
      (∀ cur rest2 sz d, step = .atHead cur rest2 sz d →
        cur.isHole = true) ∧
      (∀ l sz d, step = .deeper l sz d → headHole l = headHole blocks) := by
  intro blocks
  induction blocks with
  | nil => intro step h; simp [deallocGo] at h
  | cons b rest ih =>
    intro step h hnoadj
    rw [noAdj_cons] at hnoadj
    obtain ⟨hna1, hna2⟩ := hnoadj
    by_cases hg : b.isHole = false ∧ b.processID = pid
    · cases rest with
      | nil =>
        simp only [deallocGo, if_pos hg] at h
        obtain ⟨rfl⟩ := Option.some.inj h
        refine ⟨by simp [DeallocStep.blocksOf, noAdjacentFreePairs], ?_, ?_⟩
        · intro cur rest2 sz d heq
          cases heq
          rfl
        · intro l sz d heq
          cases heq
      | cons n rest2 =>
        rw [noAdj_cons] at hna2
        obtain ⟨hnb1, hnb2⟩ := hna2
        simp only [deallocGo, if_pos hg] at h
        by_cases hn : n.isHole = true
        · rw [if_pos hn] at h
          obtain ⟨rfl⟩ := Option.some.inj h
          have hr2 : headHole rest2 = false := by
            by_cases hh : headHole rest2 = true
            · exact absurd hn (by simp [hnb1 hh])
            · simpa using hh
          refine ⟨?_, ?_, ?_⟩
          · simp only [DeallocStep.blocksOf]
            rw [noAdj_cons]
            exact ⟨by simp [hr2], hnb2⟩
          · intro cur rest2' sz d heq
            cases heq
            rfl
          · intro l sz d heq
            cases heq
        · rw [if_neg hn] at h
          obtain ⟨rfl⟩ := Option.some.inj h
          refine ⟨?_, ?_, ?_⟩
          · simp only [DeallocStep.blocksOf]
            rw [noAdj_cons]
            refine ⟨?_, by rw [noAdj_cons]; exact ⟨hnb1, hnb2⟩⟩
            intro hh
            simp only [headHole] at hh
            exact absurd hh hn
          · intro cur rest2' sz d heq
            cases heq
            rfl
          · intro l sz d heq
            cases heq
    · cases hrec : deallocGo pid rest with
      | none => simp [deallocGo, if_neg hg, hrec] at h
      | some step2 =>
        simp only [deallocGo, if_neg hg, hrec, Option.map_some'] at h
        obtain ⟨ihna, ihat, ihdeep⟩ := ih step2 hrec hna2
        cases step2 with
        | atHead cur rest2 sz d =>
          have hcur : cur.isHole = true := ihat cur rest2 sz d rfl
          simp only [DeallocStep.blocksOf] at ihna
          rw [noAdj_cons] at ihna
          obtain ⟨ja, jb⟩ := ihna
          have hr2 : headHole rest2 = false := by
            by_cases hh : headHole rest2 = true
            · exact absurd hcur (by simp [ja hh])
            · simpa using hh
          by_cases hb : b.isHole = true
          · simp only [deallocStepUp, if_pos hb] at h
            obtain ⟨rfl⟩ := Option.some.inj h
            refine ⟨?_, ?_, ?_⟩
            · simp only [DeallocStep.blocksOf]
              rw [noAdj_cons]
              exact ⟨by simp [hr2], jb⟩
            · intro cur' rest2' sz' d' heq
              cases heq
            · intro l sz' d' heq
              cases heq
              simp [headHole]
          · simp only [deallocStepUp, if_neg hb] at h
            obtain ⟨rfl⟩ := Option.some.inj h
            refine ⟨?_, ?_, ?_⟩
            · simp only [DeallocStep.blocksOf]
              rw [noAdj_cons]
              refine ⟨?_, by rw [noAdj_cons]; exact ⟨ja, jb⟩⟩
              intro hh
              simpa using hb
            · intro cur' rest2' sz' d' heq
              cases heq
            · intro l sz' d' heq
              cases heq
              simp [headHole]
        | deeper l sz d =>
          simp only [deallocStepUp] at h
          obtain ⟨rfl⟩ := Option.some.inj h
          have hhl : headHole l = headHole rest := ihdeep l sz d rfl
          simp only [DeallocStep.blocksOf] at ihna ⊢
          refine ⟨?_, ?_, ?_⟩
          · rw [noAdj_cons]
            exact ⟨by rw [hhl]; exact hna1, ihna⟩
          · intro cur' rest2' sz' d' heq
            cases heq
          · intro l' sz' d' heq
            cases heq
            simp [headHole]

theorem deallocGo_merges {pid : Int} :
    ∀ (blocks : List MemoryBlock) (step : DeallocStep),
      deallocGo pid blocks = some step →
      (∀ cur rest2 sz d, step = .atHead cur rest2 sz d →
        ∀ ph : Bool, deallocFreeNeighbors pid ph blocks =
          d + (if ph = true then 1 else 0)) ∧
      (∀ l sz d, step = .deeper l sz d →
        ∀ ph : Bool, deallocFreeNeighbors pid ph blocks = d) := by
  intro blocks
  induction blocks with
  | nil => intro step h; simp [deallocGo] at h
  | cons b rest ih =>
    intro step h
    by_cases hg : b.isHole = false ∧ b.processID = pid
    · cases rest with
      | nil =>
        simp only [deallocGo, if_pos hg] at h
        obtain ⟨rfl⟩ := Option.some.inj h
        refine ⟨?_, ?_⟩
        · intro cur rest2 sz d heq
          cases heq
          intro ph
          simp [deallocFreeNeighbors, if_pos hg]
        · intro l sz d heq
          cases heq
      | cons n rest2 =>
        simp only [deallocGo, if_pos hg] at h
        by_cases hn : n.isHole = true
        · rw [if_pos hn] at h
          obtain ⟨rfl⟩ := Option.some.inj h
          refine ⟨?_, ?_⟩
          · intro cur rest2' sz d heq
            cases heq
            intro ph
            simp [deallocFreeNeighbors, if_pos hg, hn]
          · intro l sz d heq
            cases heq
        · rw [if_neg hn] at h
          obtain ⟨rfl⟩ := Option.some.inj h
          refine ⟨?_, ?_⟩
          · intro cur rest2' sz d heq
            cases heq
            intro ph
            simp [deallocFreeNeighbors, if_pos hg, hn]
          · intro l sz d heq
            cases heq
    · cases hrec : deallocGo pid rest with
      | none => simp [deallocGo, if_neg hg, hrec] at h
      | some step2 =>
        simp only [deallocGo, if_neg hg, hrec, Option.map_some'] at h
        obtain ⟨ihat, ihdeep⟩ := ih step2 hrec
        cases step2 with
        | atHead cur rest2 sz d =>
          by_cases hb : b.isHole = true
          · simp only [deallocStepUp, if_pos hb] at h
            obtain ⟨rfl⟩ := Option.some.inj h
            refine ⟨?_, ?_⟩
            · intro cur' rest2' sz' d' heq
              cases heq
            · intro l sz' d' heq
              cases heq
              intro ph
              have := ihat cur rest2 sz d rfl b.isHole
              simp only [deallocFreeNeighbors, if_neg hg]
              rw [this, hb]
              simp
          · simp only [deallocStepUp, if_neg hb] at h
            obtain ⟨rfl⟩ := Option.some.inj h
            refine ⟨?_, ?_⟩
            · intro cur' rest2' sz' d' heq
              cases heq
            · intro l sz' d' heq
              cases heq
              intro ph
              have := ihat cur rest2 sz d rfl b.isHole
              simp only [deallocFreeNeighbors, if_neg hg]
              rw [this]
              simp [Bool.not_eq_true] at hb
              rw [hb]
              simp
        | deeper l sz d =>
          simp only [deallocStepUp] at h
          obtain ⟨rfl⟩ := Option.some.inj h
          refine ⟨?_, ?_⟩
          · intro cur' rest2' sz' d' heq
            cases heq
          · intro l' sz' d' heq
            cases heq
            intro ph
            have := ihdeep l sz d rfl b.isHole
            simp only [deallocFreeNeighbors, if_neg hg]
            exact this

/-- Claim C2: in standard mode, a successful deallocate preserves the
no-two-adjacent-free-blocks invariant, and the hole count changes by
exactly `+1` minus one per merged free neighbour (successor first, then
predecessor), as read off the pre-state by `deallocFreeNeighbors`. -/
theorem claim2_dealloc_coalescing (mm : MemoryManager) (pid : Int)
    (_hch : chainedFrom mm.osMemory mm.totalMemory mm.blocks = true)
    (hnoadj : noAdjacentFreePairs mm.blocks = true)
    (hsucc : (deallocateMemory mm pid).2 = 1) :
    noAdjacentFreePairs (deallocateMemory mm pid).1.blocks = true ∧
    (deallocateMemory mm pid).1.numHoles =
      mm.numHoles + 1 - deallocFreeNeighbors pid false mm.blocks := by
  cases hgo : deallocGo pid mm.blocks with
  | none => simp [deallocateMemory, hgo] at hsucc
  | some step =>
    have hna := deallocGo_noAdj mm.blocks step hgo hnoadj
    have hme := deallocGo_merges mm.blocks step hgo
    simp only [deallocateMemory, hgo]
    refine ⟨hna.1, ?_⟩
    cases step with
    | atHead cur rest2 sz d =>
      have := hme.1 cur rest2 sz d rfl false
      simp only [DeallocStep.mergesOf]
      simp at this
      omega
    | deeper l sz d =>
      have := hme.2 l sz d rfl false
      simp only [DeallocStep.mergesOf]
      omega

/-- Witness for C2: deallocating owner 2 between a freed hole and the tail
hole (both neighbours free, so two merges). -/
theorem claim2_dealloc_coalescing_witness :
    noAdjacentFreePairs (runOps (initMemory 1024 256)
      [Op.alloc 1 100 .FIRST_FIT, Op.alloc 2 200 .FIRST_FIT,
       Op.dealloc 1]).blocks = true ∧
    noAdjacentFreePairs (deallocateMemory (runOps (initMemory 1024 256)
      [Op.alloc 1 100 .FIRST_FIT, Op.alloc 2 200 .FIRST_FIT,
       Op.dealloc 1]) 2).1.blocks = true :=
  ⟨by decide,
   (claim2_dealloc_coalescing (runOps (initMemory 1024 256)
      [Op.alloc 1 100 .FIRST_FIT, Op.alloc 2 200 .FIRST_FIT,
       Op.dealloc 1]) 2 (by decide) (by decide) (by decide)).1⟩

/-- Witness for C1 at a concrete run (the C3 scenario op sequence). -/
theorem claim1_ledger_invariant_witness :
    (256 : Int) < 1024 ∧
    chainedFrom 256 1024 (runOps (initMemory 1024 256)
      [Op.alloc 1 100 .FIRST_FIT, Op.alloc 2 200 .FIRST_FIT,
       Op.dealloc 1, Op.alloc 3 50 .BEST_FIT]).blocks = true :=
  ⟨by decide,
   (claim1_ledger_invariant 1024 256
      [Op.alloc 1 100 .FIRST_FIT, Op.alloc 2 200 .FIRST_FIT,
       Op.dealloc 1, Op.alloc 3 50 .BEST_FIT] (by decide)).1⟩

/-! ## Claim C3: best-fit selects the smallest adequate hole -/

/-- Claim C3: best-fit scans the whole Ledger and selects, among free
blocks large enough, the one of smallest size with ties broken by first
occurrence in address order, returning its start address; and in the spec
scenario (initialize 1024/256, two first-fit allocations, free the first,
then best-fit 50) the freed 100 KB hole at address 256 is selected. -/
theorem claim3_best_fit :
    (∀ (mm : MemoryManager) (pid size : Int) (j : Nat),
      bestFitPick size mm.blocks (mm.totalMemory + 1) = some j →
      ∃ hj : j < mm.blocks.length,
        mm.blocks[j].isHole = true ∧ size ≤ mm.blocks[j].size ∧
        (∀ (k : Nat) (hk : k < mm.blocks.length),
          mm.blocks[k].isHole = true → size ≤ mm.blocks[k].size →
          mm.blocks[j].size ≤ mm.blocks[k].size) ∧
        (∀ (k : Nat) (hk : k < mm.blocks.length), k < j →
          mm.blocks[k].isHole = true → size ≤ mm.blocks[k].size →
          mm.blocks[j].size < mm.blocks[k].size) ∧
        (bestFit mm pid size).2 = mm.blocks[j].startAddress) ∧
    (∀ (mm : MemoryManager) (size : Int) (i : Nat) (hlt : i < mm.blocks.length),
      (∀ b ∈ mm.blocks, b.size ≤ mm.totalMemory) →
      mm.blocks[i].isHole = true → size ≤ mm.blocks[i].size →
      bestFitPick size mm.blocks (mm.totalMemory + 1) ≠ none) ∧
    ((allocateMemory (initMemory 1024 256) 1 100 .FIRST_FIT).2 = 256 ∧
     (allocateMemory (allocateMemory (initMemory 1024 256) 1 100
        .FIRST_FIT).1 2 200 .FIRST_FIT).2 = 356 ∧
     (deallocateMemory (allocateMemory (allocateMemory (initMemory 1024 256)
        1 100 .FIRST_FIT).1 2 200 .FIRST_FIT).1 1).2 = 1 ∧
     (allocateMemory (deallocateMemory (allocateMemory (allocateMemory
        (initMemory 1024 256) 1 100 .FIRST_FIT).1 2 200 .FIRST_FIT).1 1).1
        3 50 .BEST_FIT).2 = 256) := by
  refine ⟨?_, ?_, by decide, by decide, by decide, by decide⟩
  · intro mm pid size j hpick
    obtain ⟨hj, hp1, hp2, _, hp4, hp5⟩ :=
      bestFitPick_spec mm.blocks (mm.totalMemory + 1) j hpick
    refine ⟨hj, hp1, hp2, hp4, hp5, ?_⟩
    simp only [bestFit, hpick]
    exact allocAt_addr mm.blocks j hj
  · intro mm size i hlt hbound h1 h2 hnone
    have := bestFitPick_none mm.blocks (mm.totalMemory + 1) hnone
      mm.blocks[i] (List.getElem_mem hlt)
    have hb := hbound mm.blocks[i] (List.getElem_mem hlt)
    push_neg at this
    have := this h1 h2
    omega

/-- Witness for C3: in the scenario state before the best-fit call, the
pick lands on index 0 (the freed 100 KB hole) and the returned address is
256. -/
theorem claim3_best_fit_witness :
    bestFitPick 50 (deallocateMemory (allocateMemory (allocateMemory
      (initMemory 1024 256) 1 100 .FIRST_FIT).1 2 200 .FIRST_FIT).1 1).1.blocks
      ((deallocateMemory (allocateMemory (allocateMemory (initMemory 1024 256)
        1 100 .FIRST_FIT).1 2 200 .FIRST_FIT).1 1).1.totalMemory + 1)
      = some 0 ∧
    (bestFit (deallocateMemory (allocateMemory (allocateMemory
      (initMemory 1024 256) 1 100 .FIRST_FIT).1 2 200 .FIRST_FIT).1 1).1
      3 50).2 = 256 := by
  refine ⟨by decide, ?_⟩
  obtain ⟨hj, _, _, _, _, haddr⟩ := claim3_best_fit.1
    (deallocateMemory (allocateMemory (allocateMemory
      (initMemory 1024 256) 1 100 .FIRST_FIT).1 2 200 .FIRST_FIT).1 1).1
    3 50 0 (by decide)
  rw [haddr]
  rfl

/-! ## Claim C8: failing operations do not touch the state -/

theorem firstFitGo_of_no_suitable {nextID pid size : Int} :
    ∀ (blocks : List MemoryBlock),
      (∀ b ∈ blocks, ¬(b.isHole = true ∧ size ≤ b.size)) →
      firstFitGo nextID pid size blocks = none := by
  intro blocks
  induction blocks with
  | nil => intro _; rfl
  | cons b rest ih =>
    intro hno
    rw [firstFitGo, if_neg (hno b (List.mem_cons_self _ _)),
      ih fun c hc => hno c (List.mem_cons_of_mem _ hc)]

theorem bestFitPick_of_no_suitable {size : Int} :
    ∀ (blocks : List MemoryBlock) (minSize : Int),
      (∀ b ∈ blocks, ¬(b.isHole = true ∧ size ≤ b.size)) →
      bestFitPick size blocks minSize = none := by
  intro blocks
  induction blocks with
  | nil => intro _ _; rfl
  | cons b rest ih =>
    intro minSize hno
    have hb := hno b (List.mem_cons_self _ _)
    rw [bestFitPick, if_neg (by tauto),
      ih minSize fun c hc => hno c (List.mem_cons_of_mem _ hc)]
    rfl

theorem worstFitPick_of_no_suitable {size : Int} :
    ∀ (blocks : List MemoryBlock) (maxSize : Int),
      (∀ b ∈ blocks, ¬(b.isHole = true ∧ size ≤ b.size)) →
      worstFitPick size blocks maxSize = none := by
  intro blocks
  induction blocks with
  | nil => intro _ _; rfl
  | cons b rest ih =>
    intro maxSize hno
    have hb := hno b (List.mem_cons_self _ _)
    rw [worstFitPick, if_neg (by tauto),
      ih maxSize fun c hc => hno c (List.mem_cons_of_mem _ hc)]
    rfl

theorem deallocGo_of_not_found {pid : Int} :
    ∀ (blocks : List MemoryBlock),
      (∀ b ∈ blocks, ¬(b.isHole = false ∧ b.processID = pid)) →
      deallocGo pid blocks = none := by
  intro blocks
  induction blocks with
  | nil => intro _; rfl
  | cons b rest ih =>
    intro hno
    rw [deallocGo, if_neg (hno b (List.mem_cons_self _ _)),
      ih fun c hc => hno c (List.mem_cons_of_mem _ hc)]
    rfl

theorem buddyDeallocGo_of_not_found {pid : Int} :
    ∀ (blocks : List MemoryBlock),
      (∀ b ∈ blocks, ¬(b.isHole = false ∧ b.processID = pid)) →
      buddyDeallocGo pid blocks = none := by
  intro blocks
  induction blocks with
  | nil => intro _; rfl
  | cons b rest ih =>
    intro hno
    rw [buddyDeallocGo, if_neg (hno b (List.mem_cons_self _ _)),
      ih fun c hc => hno c (List.mem_cons_of_mem _ hc)]
    rfl

/-- Claim C8: an allocate that fails because no free block is large enough
returns -1 with the manager (Ledger included) exactly as before, and a
deallocate or buddy-deallocate whose owner id matches no used block returns
0 with the manager exactly as before — no partial splits or merges are
visible. -/
theorem claim8_failure_is_noop :
    (∀ (mm : MemoryManager) (pid size : Int) (algo : AllocationAlgorithm),
      (∀ b ∈ mm.blocks, ¬(b.isHole = true ∧ size ≤ b.size)) →
      allocateMemory mm pid size algo = (mm, -1)) ∧
    (∀ (mm : MemoryManager) (pid : Int),
      (∀ b ∈ mm.blocks, ¬(b.isHole = false ∧ b.processID = pid)) →
      deallocateMemory mm pid = (mm, 0)) ∧
    (∀ (mm : MemoryManager) (pid : Int),
      (∀ b ∈ mm.blocks, ¬(b.isHole = false ∧ b.processID = pid)) →
      buddyDeallocate mm pid = (mm, 0)) := by
  refine ⟨?_, ?_, ?_⟩
  · intro mm pid size algo hno
    unfold allocateMemory
    by_cases h1 : size ≤ 0
    · rw [if_pos h1]
    rw [if_neg h1]
    by_cases h2 : mm.freeMemory < size
    · rw [if_pos h2]
    rw [if_neg h2]
    cases algo <;>
      simp [firstFit, bestFit, worstFit,
        firstFitGo_of_no_suitable mm.blocks hno,
        bestFitPick_of_no_suitable mm.blocks _ hno,
        worstFitPick_of_no_suitable mm.blocks _ hno]
  · intro mm pid hno
    simp [deallocateMemory, deallocGo_of_not_found mm.blocks hno]
  · intro mm pid hno
    simp [buddyDeallocate, buddyDeallocGo_of_not_found mm.blocks hno]

/-- Witness for C8: on the freshly initialized manager an oversized
allocate, and deallocates of an unknown owner, all leave the state
untouched. -/
theorem claim8_failure_is_noop_witness :
    allocateMemory (initMemory 1024 256) 1 100000 .FIRST_FIT
      = (initMemory 1024 256, -1) ∧
    deallocateMemory (initMemory 1024 256) 7 = (initMemory 1024 256, 0) ∧
    buddyDeallocate (initMemory 1024 256) 7 = (initMemory 1024 256, 0) :=
  ⟨claim8_failure_is_noop.1 (initMemory 1024 256) 1 100000 .FIRST_FIT
      (by decide),
   claim8_failure_is_noop.2.1 (initMemory 1024 256) 7 (by decide),
   claim8_failure_is_noop.2.2 (initMemory 1024 256) 7 (by decide)⟩

/-! ## Claim C4: compaction packs used blocks and zeroes fragmentation -/

theorem chainedFrom_append :
    ∀ (l1 : List MemoryBlock) (lo mid hi : Int) (l2 : List MemoryBlock),
      chainedFrom lo mid l1 = true → chainedFrom mid hi l2 = true →
      chainedFrom lo hi (l1 ++ l2) = true := by
  intro l1
  induction l1 with
  | nil =>
    intro lo mid hi l2 h1 h2
    rw [chainedFrom_nil] at h1
    simpa [h1] using h2
  | cons b rest ih =>
    intro lo mid hi l2 h1 h2
    rw [chainedFrom_cons] at h1
    simp only [List.cons_append]
    rw [chainedFrom_cons]
    exact ⟨h1.1, h1.2.1, h1.2.2.1, ih _ mid hi l2 h1.2.2.2 h2⟩

theorem collectProcs_sizes_pos :
    ∀ (l : List MemoryBlock) (lo hi : Int),
      chainedFrom lo hi l = true →
      ∀ p ∈ collectProcs l, 1 ≤ p.2 := by
  intro l
  induction l with
  | nil => intro lo hi _ p hp; simp [collectProcs] at hp
  | cons b rest ih =>
    intro lo hi h p hp
    rw [chainedFrom_cons] at h
    rw [collectProcs] at hp
    split at hp
    · exact ih (b.endAddress + 1) hi h.2.2.2 p hp
    · rcases List.mem_cons.1 hp with hp | hp
      · subst hp; simp; omega
      · exact ih (b.endAddress + 1) hi h.2.2.2 p hp

theorem collectProcs_sum_le :
    ∀ (l : List MemoryBlock) (lo hi : Int),
      chainedFrom lo hi l = true →
      ((collectProcs l).map Prod.snd).sum ≤ hi - lo := by
  intro l
  induction l with
  | nil =>
    intro lo hi h
    rw [chainedFrom_nil] at h
    simp [collectProcs, h]
  | cons b rest ih =>
    intro lo hi h
    rw [chainedFrom_cons] at h
    obtain ⟨h1, h2, h3, h4⟩ := h
    have := ih (b.endAddress + 1) hi h4
    rw [collectProcs]
    split
    · omega
    · simp only [List.map_cons, List.sum_cons]
      omega

theorem rebuildUsed_currentAddr :
    ∀ (procs : List (Int × Int)) (nid addr : Int),
      (rebuildUsed nid addr procs).2.2 =
        addr + ((procs.map Prod.snd).sum) := by
  intro procs
  induction procs with
  | nil => intro nid addr; simp [rebuildUsed]
  | cons p rest ih =>
    intro nid addr
    obtain ⟨pid, sz⟩ := p
    simp only [rebuildUsed, List.map_cons, List.sum_cons]
    rw [ih]
    omega

theorem rebuildUsed_all_used :
    ∀ (procs : List (Int × Int)) (nid addr : Int),
      ∀ b ∈ (rebuildUsed nid addr procs).1, b.isHole = false := by
  intro procs
  induction procs with
  | nil => intro nid addr b hb; simp [rebuildUsed] at hb
  | cons p rest ih =>
    intro nid addr b hb
    obtain ⟨pid, sz⟩ := p
    simp only [rebuildUsed] at hb
    rcases List.mem_cons.1 hb with hb | hb
    · subst hb; rfl
    · exact ih (nid + 1) (addr + sz) b hb

theorem rebuildUsed_collect :
    ∀ (procs : List (Int × Int)) (nid addr : Int),
      collectProcs (rebuildUsed nid addr procs).1 = procs := by
  intro procs
  induction procs with
  | nil => intro nid addr; rfl
  | cons p rest ih =>
    intro nid addr
    obtain ⟨pid, sz⟩ := p
    simp only [rebuildUsed, collectProcs, createBlock]
    rw [if_neg (by simp)]
    rw [ih]
    have harith : addr + sz - 1 - addr + 1 = sz := by omega
    rw [harith]

theorem rebuildUsed_chained :
    ∀ (procs : List (Int × Int)) (nid addr hi : Int),
      (∀ p ∈ procs, 1 ≤ p.2) →
      hi = addr + ((procs.map Prod.snd).sum) →
      chainedFrom addr hi (rebuildUsed nid addr procs).1 = true := by
  intro procs
  induction procs with
  | nil =>
    intro nid addr hi _ hhi
    simp only [rebuildUsed]
    rw [chainedFrom_nil]
    simp at hhi
    omega
  | cons p rest ih =>
    intro nid addr hi hpos hhi
    obtain ⟨pid, sz⟩ := p
    have hsz : 1 ≤ sz := hpos (pid, sz) (List.mem_cons_self _ _)
    simp only [rebuildUsed, createBlock]
    rw [chainedFrom_cons]
    refine ⟨rfl, ?_, rfl, ?_⟩
    · show addr ≤ addr + sz - 1
      omega
    · have := ih (nid + 1) (addr + sz) hi
        (fun q hq => hpos q (List.mem_cons_of_mem _ hq))
        (by simp only [List.map_cons, List.sum_cons] at hhi ⊢; omega)
      show chainedFrom (addr + sz - 1 + 1) hi _ = true
      have harith : addr + sz - 1 + 1 = addr + sz := by omega
      rw [harith]
      exact this

theorem calculateFragmentation_eq_zero (mm : MemoryManager)
    (h : mm.freeMemory = largestHoleAux 0 mm.blocks) :
    calculateFragmentation mm = 0 := by
  unfold calculateFragmentation
  split
  · rfl
  · rw [← h]
    simp

theorem collectProcs_append_hole :
    ∀ (l : List MemoryBlock) (h : MemoryBlock), h.isHole = true →
      collectProcs (l ++ [h]) = collectProcs l := by
  intro l
  induction l with
  | nil => intro h hh; simp [collectProcs, hh]
  | cons b rest ih =>
    intro h hh
    simp only [List.cons_append, collectProcs, List.append_eq, ih h hh]

theorem largestHoleAux_skip_used :
    ∀ (l tail : List MemoryBlock) (acc : Int),
      (∀ b ∈ l, b.isHole = false) →
      largestHoleAux acc (l ++ tail) = largestHoleAux acc tail := by
  intro l
  induction l with
  | nil => intro tail acc _; rfl
  | cons b rest ih =>
    intro tail acc hall
    have hb : b.isHole = false := hall b (List.mem_cons_self _ _)
    simp only [List.cons_append, largestHoleAux]
    rw [if_neg (by simp [hb])]
    exact ih tail acc fun c hc => hall c (List.mem_cons_of_mem _ hc)

/-- Claim C4: compacting a Ledger that holds at least one used block
rebuilds it as exactly the used blocks (same owners, same sizes, same
relative order) packed from the base of the user suffix, followed by at
most one block that can be free — a single trailing hole covering all the
remaining space — and the whole rebuilt Ledger again tiles the user
suffix; whenever a free block remains, the fragmentation metric of the
result is 0. -/
theorem claim4_compact (mm : MemoryManager)
    (hch : chainedFrom mm.osMemory mm.totalMemory mm.blocks = true)
    (hused : collectProcs mm.blocks ≠ []) :
    (compact mm).2 = 1 ∧
    collectProcs (compact mm).1.blocks = collectProcs mm.blocks ∧
    chainedFrom mm.osMemory mm.totalMemory (compact mm).1.blocks = true ∧
    (∀ b ∈ (compact mm).1.blocks.dropLast, b.isHole = false) ∧
    ((∃ b ∈ (compact mm).1.blocks, b.isHole = true) →
      calculateFragmentation (compact mm).1 = 0) := by
  have hpos := collectProcs_sizes_pos mm.blocks _ _ hch
  have hsum := collectProcs_sum_le mm.blocks _ _ hch
  have hlo := chainedFrom_le mm.blocks _ _ hch
  have hcur := rebuildUsed_currentAddr (collectProcs mm.blocks)
    mm.nextBlockID mm.osMemory
  have hrch := rebuildUsed_chained (collectProcs mm.blocks) mm.nextBlockID
    mm.osMemory (mm.osMemory + ((collectProcs mm.blocks).map Prod.snd).sum)
    hpos rfl
  have hall := rebuildUsed_all_used (collectProcs mm.blocks)
    mm.nextBlockID mm.osMemory
  have hcol := rebuildUsed_collect (collectProcs mm.blocks)
    mm.nextBlockID mm.osMemory
  unfold compact
  rw [if_neg (by simpa using hused)]
  set r := rebuildUsed mm.nextBlockID mm.osMemory (collectProcs mm.blocks)
    with hr
  by_cases hrem : 0 < mm.totalMemory - r.2.2
  · rw [if_pos hrem]
    simp only
    have hchole : chainedFrom r.2.2 mm.totalMemory
        [createBlock r.2.1 true r.2.2 (mm.totalMemory - 1) (-1)] = true := by
      simp only [createBlock]
      rw [chainedFrom_cons]
      refine ⟨rfl, ?_, rfl, ?_⟩
      · show r.2.2 ≤ mm.totalMemory - 1
        omega
      · rw [chainedFrom_nil]
        show mm.totalMemory - 1 + 1 = mm.totalMemory
        omega
    refine ⟨trivial, ?_, ?_, ?_, ?_⟩
    · rw [collectProcs_append_hole r.1 _ rfl]
      exact hcol
    · refine chainedFrom_append r.1 mm.osMemory r.2.2 mm.totalMemory _ ?_
        hchole
      rw [← hcur] at hrch
      exact hrch
    · intro b hb
      rw [List.dropLast_concat] at hb
      exact hall b hb
    · intro _
      have hcond : (createBlock r.2.1 true r.2.2 (mm.totalMemory - 1)
          (-1)).isHole = true ∧
          (0:Int) < (createBlock r.2.1 true r.2.2 (mm.totalMemory - 1)
          (-1)).size :=
        ⟨rfl, by show (0:Int) < mm.totalMemory - 1 - r.2.2 + 1; omega⟩
      have hlarge : largestHoleAux 0 (r.1 ++
          [createBlock r.2.1 true r.2.2 (mm.totalMemory - 1) (-1)]) =
          mm.totalMemory - r.2.2 := by
        rw [largestHoleAux_skip_used r.1 _ 0 hall]
        rw [largestHoleAux, if_pos hcond, largestHoleAux]
        show mm.totalMemory - 1 - r.2.2 + 1 = mm.totalMemory - r.2.2
        omega
      apply calculateFragmentation_eq_zero
      show mm.totalMemory - r.2.2 = largestHoleAux 0 (r.1 ++
        [createBlock r.2.1 true r.2.2 (mm.totalMemory - 1) (-1)])
      rw [hlarge]
  · rw [if_neg hrem]
    simp only
    have hc2 : r.2.2 = mm.totalMemory := by
      rw [hcur]
      omega
    refine ⟨trivial, hcol, ?_, ?_, ?_⟩
    · have heq : mm.osMemory + ((collectProcs mm.blocks).map Prod.snd).sum =
          mm.totalMemory := by omega
      rw [heq] at hrch
      exact hrch
    · intro b hb
      exact hall b ((List.dropLast_sublist r.1).subset hb)
    · rintro ⟨b, hb, hbh⟩
      exact absurd hbh (by simp [hall b hb])

/-- Witness for C4: compacting the fragmented scenario state (hole, used,
hole) succeeds and reports 1. -/
theorem claim4_compact_witness :
    chainedFrom (runOps (initMemory 1024 256) [Op.alloc 1 100 .FIRST_FIT,
        Op.alloc 2 200 .FIRST_FIT, Op.dealloc 1]).osMemory
      (runOps (initMemory 1024 256) [Op.alloc 1 100 .FIRST_FIT,
        Op.alloc 2 200 .FIRST_FIT, Op.dealloc 1]).totalMemory
      (runOps (initMemory 1024 256) [Op.alloc 1 100 .FIRST_FIT,
        Op.alloc 2 200 .FIRST_FIT, Op.dealloc 1]).blocks = true ∧
    (compact (runOps (initMemory 1024 256) [Op.alloc 1 100 .FIRST_FIT,
        Op.alloc 2 200 .FIRST_FIT, Op.dealloc 1])).2 = 1 :=
  ⟨by decide,
   (claim4_compact (runOps (initMemory 1024 256) [Op.alloc 1 100 .FIRST_FIT,
        Op.alloc 2 200 .FIRST_FIT, Op.dealloc 1]) (by decide) (by decide)).1⟩

/-! ## Claim C9: the buddy merge loop strictly shrinks and terminates -/

theorem findBuddy_spec {bid : Int} :
    ∀ (blocks : List MemoryBlock) (j : Nat) (buddy : MemoryBlock),
      findBuddy bid blocks = some (j, buddy) →
      ∃ hj : j < blocks.length, blocks[j] = buddy := by
  intro blocks
  induction blocks with
  | nil => intro j buddy h; simp [findBuddy] at h
  | cons b rest ih =>
    intro j buddy h
    rw [findBuddy] at h
    split at h
    · obtain ⟨rfl, rfl⟩ := Prod.mk.injEq _ _ _ _ ▸ Option.some.inj h
      exact ⟨by simp, rfl⟩
    · cases hrec : findBuddy bid rest with
      | none => rw [hrec] at h; simp at h
      | some q =>
        rw [hrec] at h
        obtain ⟨j0, buddy0⟩ := q
        simp only [Option.map_some'] at h
        obtain ⟨rfl, rfl⟩ := Prod.mk.injEq _ _ _ _ ▸ Option.some.inj h
        obtain ⟨hj, hb⟩ := ih j0 buddy0 hrec
        exact ⟨by simpa using Nat.succ_lt_succ hj, by simpa using hb⟩

theorem mergeCandidateGo_spec :
    ∀ (suffix blocks : List MemoryBlock) (i : Nat),
      blocks.drop i = suffix →
      ∀ a j, mergeCandidateGo blocks i suffix = some (a, j) →
      (∃ ha : a < blocks.length, blocks[a].isHole = true) ∧
      (∃ hj : j < blocks.length, blocks[j].isHole = true) := by
  intro suffix
  induction suffix with
  | nil => intro blocks i _ a j h; simp [mergeCandidateGo] at h
  | cons b rest ih =>
    intro blocks i hdrop a j h
    have hi : i < blocks.length := by
      by_contra hge
      rw [List.drop_eq_nil_of_le (by omega)] at hdrop
      exact List.cons_ne_nil b rest hdrop.symm
    have hdec := List.drop_eq_getElem_cons hi
    rw [hdrop] at hdec
    obtain ⟨hbi, hdrop'⟩ : blocks[i] = b ∧ blocks.drop (i + 1) = rest := by
      have := List.cons.injEq b rest blocks[i] (blocks.drop (i + 1)) ▸ hdec
      exact ⟨this.1.symm, this.2.symm⟩
    rw [mergeCandidateGo] at h
    split at h
    case isTrue hg =>
      cases hfb : findBuddy b.buddyID blocks with
      | none =>
        rw [hfb] at h
        exact ih blocks (i + 1) hdrop' a j h
      | some q =>
        obtain ⟨j0, buddy⟩ := q
        rw [hfb] at h
        simp only at h
        by_cases hbud : buddy.isHole = true
        · rw [if_pos hbud] at h
          obtain ⟨rfl, rfl⟩ := Prod.mk.injEq _ _ _ _ ▸ Option.some.inj h
          obtain ⟨hj0, hb0⟩ := findBuddy_spec blocks j0 buddy hfb
          exact ⟨⟨hi, by rw [hbi]; exact hg.1⟩, ⟨hj0, by rw [hb0]; exact hbud⟩⟩
        · rw [if_neg hbud] at h
          exact ih blocks (i + 1) hdrop' a j h
    case isFalse hg =>
      exact ih blocks (i + 1) hdrop' a j h

theorem countFree_set_free :
    ∀ (l : List MemoryBlock) (p : Nat) (x : MemoryBlock)
      (hp : p < l.length),
      l[p].isHole = true → x.isHole = true →
      countFree (l.set p x) = countFree l := by
  intro l
  induction l with
  | nil => intro p x hp; simp at hp
  | cons b rest ih =>
    intro p x hp hfree hx
    cases p with
    | zero =>
      simp only [List.getElem_cons_zero] at hfree
      simp [countFree, List.set, List.filter, hfree, hx]
    | succ q =>
      simp only [List.getElem_cons_succ] at hfree
      simp only [countFree, List.set, List.filter] at *
      cases b.isHole <;>
        simp_all [ih q x (by simpa using hp) hfree hx]

theorem countFree_eraseIdx_free :
    ∀ (l : List MemoryBlock) (p : Nat) (hp : p < l.length),
      l[p].isHole = true →
      countFree (l.eraseIdx p) + 1 = countFree l := by
  intro l
  induction l with
  | nil => intro p hp; simp at hp
  | cons b rest ih =>
    intro p hp hfree
    cases p with
    | zero =>
      simp only [List.getElem_cons_zero] at hfree
      simp [countFree, List.eraseIdx, List.filter, hfree]
    | succ q =>
      simp only [List.getElem_cons_succ] at hfree
      have := ih q (by simpa using hp) hfree
      simp only [countFree, List.eraseIdx, List.filter] at *
      cases b.isHole <;> simp_all

theorem set_erase_shrinks (blocks : List MemoryBlock) (p q : Nat)
    (x : MemoryBlock) (hp : p < blocks.length) (hq : q < blocks.length)
    (hfp : blocks[p].isHole = true) (hfq : blocks[q].isHole = true)
    (hx : x.isHole = true) :
    ((blocks.set p x).eraseIdx q).length + 1 = blocks.length ∧
    countFree ((blocks.set p x).eraseIdx q) + 1 = countFree blocks := by
  have hq' : q < (blocks.set p x).length := by
    rw [List.length_set]
    exact hq
  refine ⟨?_, ?_⟩
  · rw [List.length_eraseIdx_add_one hq', List.length_set]
  · have hset := countFree_set_free blocks p x hp hfp hx
    have hget : (blocks.set p x)[q].isHole = true := by
      by_cases hpq : p = q
      · subst hpq
        rw [List.getElem_set_self hq']
        exact hx
      · rw [List.getElem_set_ne hpq]
        exact hfq
    rw [countFree_eraseIdx_free _ q hq' hget, hset]

theorem mergeAt_shrinks :
    ∀ (blocks : List MemoryBlock) (i j : Nat)
      (hi : i < blocks.length) (hj : j < blocks.length),
      blocks[i].isHole = true → blocks[j].isHole = true →
      (mergeAt blocks i j).length + 1 = blocks.length ∧
      countFree (mergeAt blocks i j) + 1 = countFree blocks := by
  intro blocks i j hi hj hfi hfj
  unfold mergeAt
  rw [List.getElem?_eq_getElem hi, List.getElem?_eq_getElem hj]
  simp only
  by_cases hcmp : blocks[i].startAddress < blocks[j].startAddress
  · simp only [if_pos hcmp]
    exact set_erase_shrinks blocks i j _ hi hj hfi hfj hfi
  · simp only [if_neg hcmp]
    exact set_erase_shrinks blocks j i _ hj hi hfj hfi hfj

theorem mergeScan_shrinks :
    ∀ (blocks l' : List MemoryBlock), mergeScan blocks = some l' →
      l'.length + 1 = blocks.length ∧
      countFree l' + 1 = countFree blocks := by
  intro blocks l' h
  unfold mergeScan at h
  cases hc : mergeCandidateGo blocks 0 blocks with
  | none => rw [hc] at h; simp at h
  | some q =>
    obtain ⟨a, j⟩ := q
    rw [hc] at h
    simp only [Option.map_some'] at h
    obtain ⟨rfl⟩ := Option.some.inj h
    obtain ⟨⟨ha, hfa⟩, ⟨hj, hfj⟩⟩ :=
      mergeCandidateGo_spec blocks blocks 0 rfl a j hc
    have := mergeAt_shrinks blocks a j ha hj hfa hfj
    exact ⟨this.1, this.2⟩

theorem mergeLoop_reaches_fixpoint :
    ∀ (fuel : Nat) (blocks : List MemoryBlock),
      blocks.length ≤ fuel →
      mergeScan (mergeLoop fuel blocks).1 = none := by
  intro fuel
  induction fuel with
  | zero =>
    intro blocks hlen
    have hnil : blocks = [] := List.eq_nil_of_length_eq_zero (by omega)
    subst hnil
    rfl
  | succ f ih =>
    intro blocks hlen
    rw [mergeLoop]
    cases hscan : mergeScan blocks with
    | none => exact hscan
    | some l' =>
      have := (mergeScan_shrinks blocks l' hscan).1
      exact ih l' (by omega)

/-- Claim C9: each merge of the buddy-deallocate scan removes exactly one
block and one free block (so the free-block count strictly decreases), and
therefore the scan-and-restart loop reaches, within `length` rounds, a
state in which a full scan produces no merge — the loop terminates. -/
theorem claim9_buddy_merge_terminates :
    (∀ (blocks l' : List MemoryBlock), mergeScan blocks = some l' →
      countFree l' + 1 = countFree blocks ∧
      l'.length + 1 = blocks.length) ∧
    (∀ blocks : List MemoryBlock,
      mergeScan (mergeLoop blocks.length blocks).1 = none) := by
  refine ⟨?_, ?_⟩
  · intro blocks l' h
    have := mergeScan_shrinks blocks l' h
    exact ⟨this.2, this.1⟩
  · intro blocks
    exact mergeLoop_reaches_fixpoint blocks.length blocks le_rfl

/-- Witness for C9 on a concrete free buddy pair: the scan merges it, the
free count drops from 2 to 1, and the loop fixpoint rejects further
merges. -/
theorem claim9_buddy_merge_terminates_witness :
    mergeScan [⟨true, 256, 319, 64, -1, 1, 2⟩, ⟨true, 320, 383, 64, -1, 2, 1⟩]
      = some [⟨true, 256, 383, 128, -1, 1, -1⟩] ∧
    countFree [(⟨true, 256, 383, 128, -1, 1, -1⟩ : MemoryBlock)] + 1 =
      countFree [⟨true, 256, 319, 64, -1, 1, 2⟩, ⟨true, 320, 383, 64, -1, 2, 1⟩] :=
  ⟨by decide,
   (claim9_buddy_merge_terminates.1
      [⟨true, 256, 319, 64, -1, 1, 2⟩, ⟨true, 320, 383, 64, -1, 2, 1⟩]
      [⟨true, 256, 383, 128, -1, 1, -1⟩] (by decide)).1⟩

/-! ## Claim C10: nextPowerOf2 and its 32-bit overflow -/

theorem or_shift_testBit (x s i : Nat) :
    (x ||| (x >>> s)).testBit i = (x.testBit i || x.testBit (i + s)) := by
  rw [Nat.testBit_or, Nat.testBit_shiftRight x, Nat.add_comm s i]

theorem smearBits_testBit (m : Nat) (i : Nat) :
    (smearBits m).testBit i = true ↔
      ∃ d, d < 32 ∧ m.testBit (i + d) = true := by
  have stage : ∀ (x w : Nat),
      (∀ j, x.testBit j = true ↔ ∃ d, d < w ∧ m.testBit (j + d) = true) →
      ∀ j, (x ||| (x >>> w)).testBit j = true ↔
        ∃ d, d < 2 * w ∧ m.testBit (j + d) = true := by
    intro x w hx j
    rw [or_shift_testBit, Bool.or_eq_true, hx j, hx (j + w)]
    constructor
    · rintro (⟨d, hd, hbit⟩ | ⟨d, hd, hbit⟩)
      · exact ⟨d, by omega, hbit⟩
      · exact ⟨w + d, by omega, by rwa [← Nat.add_assoc]⟩
    · rintro ⟨d, hd, hbit⟩
      by_cases hdw : d < w
      · exact Or.inl ⟨d, hdw, hbit⟩
      · refine Or.inr ⟨d - w, by omega, ?_⟩
        have harith : j + (w + (d - w)) = j + d := by omega
        rw [Nat.add_assoc, harith]
        exact hbit
  have base : ∀ j, m.testBit j = true ↔
      ∃ d, d < 1 ∧ m.testBit (j + d) = true := by
    intro j
    constructor
    · intro h; exact ⟨0, by omega, by simpa using h⟩
    · rintro ⟨d, hd, h⟩
      have : d = 0 := by omega
      subst this
      simpa using h
  have t1 := stage m 1 base
  have t2 := stage _ 2 t1
  have t3 := stage _ 4 t2
  have t4 := stage _ 8 t3
  have t5 := stage _ 16 t4
  exact t5 i

theorem smearBits_eq (m : Nat) (h1 : 1 ≤ m) (h2 : m < 2 ^ 31) :
    smearBits m = 2 ^ (Nat.log2 m + 1) - 1 := by
  have hm0 : m ≠ 0 := by omega
  have hlog : Nat.log2 m < 31 := (Nat.log2_lt hm0).2 h2
  have htop : m.testBit (Nat.log2 m) = true := by
    have hle := Nat.log2_self_le hm0
    have hlt : m < 2 ^ (Nat.log2 m + 1) := Nat.lt_log2_self
    rw [Nat.testBit_to_div_mod]
    have hdiv : m / 2 ^ Nat.log2 m = 1 := by
      have hge : 1 ≤ m / 2 ^ Nat.log2 m :=
        (Nat.one_le_div_iff (Nat.pos_pow_of_pos _ (by omega))).2 hle
      have hlt2 : m / 2 ^ Nat.log2 m < 2 := by
        rw [Nat.div_lt_iff_lt_mul (Nat.pos_pow_of_pos _ (by omega))]
        calc m < 2 ^ (Nat.log2 m + 1) := hlt
        _ = 2 ^ Nat.log2 m * 2 := by rw [Nat.pow_succ]
        _ ≤ 2 * 2 ^ Nat.log2 m := by omega
      omega
    simp [hdiv]
  apply Nat.eq_of_testBit_eq
  intro i
  rw [Nat.testBit_two_pow_sub_one]
  by_cases hi : i < Nat.log2 m + 1
  · simp only [hi, decide_True]
    rw [smearBits_testBit]
    refine ⟨Nat.log2 m - i, by omega, ?_⟩
    have harith : i + (Nat.log2 m - i) = Nat.log2 m := by omega
    rw [harith]
    exact htop
  · simp only [hi, decide_False]
    rw [← Bool.not_eq_true]
    rw [smearBits_testBit]
    rintro ⟨d, hd, hbit⟩
    have : m < 2 ^ (i + d) := by
      calc m < 2 ^ (Nat.log2 m + 1) := Nat.lt_log2_self
      _ ≤ 2 ^ (i + d) := Nat.pow_le_pow_right (by omega) (by omega)
    rw [Nat.testBit_lt_two_pow this] at hbit
    exact absurd hbit (by simp)

theorem nextPowerOf2_le_one (n : Int) (h : n ≤ 1) : nextPowerOf2 n = 1 := by
  unfold nextPowerOf2
  rw [if_pos h]

theorem nextPowerOf2_spec (n : Int) (h2 : 2 ≤ n) (h30 : n ≤ 2 ^ 30) :
    nextPowerOf2 n = 2 ^ (Nat.log2 (n - 1).toNat + 1) := by
  have hm1 : 1 ≤ (n - 1).toNat := by omega
  have hm2 : (n - 1).toNat < 2 ^ 30 := by
    have : ((n - 1).toNat : Int) = n - 1 := Int.toNat_of_nonneg (by omega)
    have h30' : (2:Int) ^ 30 = ((2 ^ 30 : ℕ) : ℤ) := by push_cast
    omega
  have hsm := smearBits_eq (n - 1).toNat hm1 (by
    calc (n - 1).toNat < 2 ^ 30 := hm2
    _ ≤ 2 ^ 31 := by norm_num)
  have hlog : Nat.log2 (n - 1).toNat < 30 := (Nat.log2_lt (by omega)).2 hm2
  unfold nextPowerOf2
  rw [if_neg (by omega)]
  simp only [hsm]
  have hpow_pos : 1 ≤ 2 ^ (Nat.log2 (n - 1).toNat + 1) :=
    Nat.one_le_two_pow
  have hr : ((2 ^ (Nat.log2 (n - 1).toNat + 1) - 1 : ℕ) : ℤ) + 1 =
      ((2 ^ (Nat.log2 (n - 1).toNat + 1) : ℕ) : ℤ) := by
    push_cast [hpow_pos]
    ring
  rw [hr]
  have hbound : ((2 ^ (Nat.log2 (n - 1).toNat + 1) : ℕ) : ℤ) < 2 ^ 31 := by
    have : (2 : ℕ) ^ (Nat.log2 (n - 1).toNat + 1) ≤ 2 ^ 30 :=
      Nat.pow_le_pow_right (by omega) (by omega)
    have h31 : (2:Int) ^ 31 = ((2 ^ 31 : ℕ) : ℤ) := by push_cast
    omega
  rw [if_pos hbound]
  push_cast
  ring

/-- Counterexample to C10 as frozen: at n = 2^30 + 1 the final increment
of `nextPowerOf2` overflows the 32-bit int (wrapping to -2^31), so the
result is not ≥ n. -/
theorem claim10_counterexample :
    ¬((2:Int) ^ 30 + 1 ≤ nextPowerOf2 ((2:Int) ^ 30 + 1)) := by decide

/-- Claim C10 as amended: for every n ≤ 2^30 (so that the increment cannot
overflow int), `nextPowerOf2 n` is at least n, is a power of two, and is
the smallest power of two that is ≥ n; in particular 50→64, 64→64, 100→128
and 1→1. -/
theorem claim10_next_power_of_two :
    (∀ n : Int, n ≤ 2 ^ 30 →
      n ≤ nextPowerOf2 n ∧
      (∃ k : ℕ, nextPowerOf2 n = 2 ^ k) ∧
      (∀ j : ℕ, n ≤ 2 ^ j → nextPowerOf2 n ≤ 2 ^ j)) ∧
    nextPowerOf2 50 = 64 ∧ nextPowerOf2 64 = 64 ∧
    nextPowerOf2 100 = 128 ∧ nextPowerOf2 1 = 1 := by
  refine ⟨?_, by decide, by decide, by decide, by decide⟩
  intro n h30
  by_cases h1 : n ≤ 1
  · rw [nextPowerOf2_le_one n h1]
    refine ⟨by omega, ⟨0, by norm_num⟩, ?_⟩
    intro j _
    calc (1:Int) = 2 ^ 0 := by norm_num
    _ ≤ 2 ^ j := pow_le_pow_right₀ (by norm_num) (by omega)
  · have h2 : 2 ≤ n := by omega
    rw [nextPowerOf2_spec n h2 h30]
    set k := Nat.log2 (n - 1).toNat with hk
    have hcast : ((n - 1).toNat : Int) = n - 1 := Int.toNat_of_nonneg (by omega)
    have hlt : (n - 1).toNat < 2 ^ (k + 1) := Nat.lt_log2_self
    refine ⟨?_, ⟨k + 1, rfl⟩, ?_⟩
    · have : ((n - 1).toNat : Int) < ((2 ^ (k + 1) : ℕ) : ℤ) := by
        exact_mod_cast hlt
      have hc : ((2 ^ (k + 1) : ℕ) : ℤ) = (2:Int) ^ (k + 1) := by
        push_cast; ring
      omega
    · intro j hj
      have hml : (n - 1).toNat < 2 ^ j := by
        have hc : ((2 ^ j : ℕ) : ℤ) = (2:Int) ^ j := by push_cast; ring
        omega
      have : k < j := (Nat.log2_lt (by omega)).2 hml
      have hp : (2:ℕ) ^ (k + 1) ≤ 2 ^ j := Nat.pow_le_pow_right (by omega)
        (by omega)
      have hc1 : ((2 ^ (k + 1) : ℕ) : ℤ) = (2:Int) ^ (k + 1) := by
        push_cast; ring
      have hc2 : ((2 ^ j : ℕ) : ℤ) = (2:Int) ^ j := by push_cast; ring
      omega

/-- Witness for the amended C10 at n = 50. -/
theorem claim10_next_power_of_two_witness :
    (50 : Int) ≤ 2 ^ 30 ∧ (50 : Int) ≤ nextPowerOf2 50 :=
  ⟨by decide, (claim10_next_power_of_two.1 50 (by decide)).1⟩

/-! ## Claim C6: the buddyAllocate(50)-on-256 scenario -/

/-- Counterexample to C6 as frozen: on a fresh 256-sized buddy region
(initialize 512/256 then convert), buddyAllocate(50) performs two splits,
not three, and leaves three blocks present, not four. -/
theorem claim6_counterexample :
    ¬(buddyAllocateSplits (convertToBuddySystem (initMemory 512 256)) 50 = 3 ∧
      (buddyAllocate (convertToBuddySystem (initMemory 512 256))
        50).1.blocks.length = 4) := by decide

/-- Claim C6 as amended: buddyAllocate(50) on a fresh 256-sized buddy
region computes ceiling 64 and wastedSpace 14, records two splits, and
leaves three blocks present — a 64 used block, a 64 free block and a 128
free block (the original block was consumed by the splits), at addresses
256, 320 and 384. -/
theorem claim6_buddy_scenario :
    nextPowerOf2 50 = 64 ∧
    nextPowerOf2 50 - 50 = 14 ∧
    buddyAllocateSplits (convertToBuddySystem (initMemory 512 256)) 50 = 2 ∧
    (buddyAllocate (convertToBuddySystem (initMemory 512 256))
        50).2 = 256 ∧
    ((buddyAllocate (convertToBuddySystem (initMemory 512 256))
        50).1.blocks.map
      (fun b => (b.isHole, b.startAddress, b.size))) =
      [(false, 256, 64), (true, 320, 64), (true, 384, 128)] := by
  refine ⟨by decide, by decide, by decide, by decide, by decide⟩

/-! ## Claim C7: request validation on the allocation paths -/

/-- Counterexample to C7 as frozen: `buddyAllocate` does not reject a
non-positive requested size — on a fresh 256-sized buddy region a request
of size 0 is rounded up to ceiling 1 and succeeds, changing the Ledger. -/
theorem claim7_counterexample :
    ¬((buddyAllocate (convertToBuddySystem (initMemory 512 256)) 0).2 = -1 ∧
      (buddyAllocate (convertToBuddySystem (initMemory 512 256)) 0).1 =
        convertToBuddySystem (initMemory 512 256)) := by decide

/-- Claim C7 as amended: the standard `allocateMemory` facade rejects a
non-positive size, and fast-fails a request exceeding the aggregate free
total, in both cases before any scan and leaving the manager unchanged;
`buddyAllocate` performs no such validation — a size-0 request on the
fresh 256 buddy region succeeds at address 256 (and even a failing buddy
request leaves the process counter bumped). -/
theorem claim7_validation :
    (∀ (mm : MemoryManager) (pid size : Int) (algo : AllocationAlgorithm),
      size ≤ 0 → allocateMemory mm pid size algo = (mm, -1)) ∧
    (∀ (mm : MemoryManager) (pid size : Int) (algo : AllocationAlgorithm),
      mm.freeMemory < size → allocateMemory mm pid size algo = (mm, -1)) ∧
    (buddyAllocate (convertToBuddySystem (initMemory 512 256)) 0).2 = 256 ∧
    (∀ (mm : MemoryManager) (size : Int),
      (buddyAllocate mm size).1.processCounter = mm.processCounter + 1) := by
  refine ⟨?_, ?_, by decide, ?_⟩
  · intro mm pid size algo h
    unfold allocateMemory
    rw [if_pos h]
  · intro mm pid size algo h
    unfold allocateMemory
    by_cases h1 : size ≤ 0
    · rw [if_pos h1]
    · rw [if_neg h1, if_pos h]
  · intro mm size
    unfold buddyAllocate
    cases hgo : buddyAllocGo (nextPowerOf2 size) (mm.processCounter + 1)
        mm.nextBlockID mm.blocks with
    | none => simp only [hgo]
    | some q =>
      obtain ⟨l, addr, nid, splits, fsize⟩ := q
      simp only [hgo]

/-- Witness for the amended C7: a size-0 and an oversized standard request
on the fresh manager are rejected unchanged. -/
theorem claim7_validation_witness :
    (0 : Int) ≤ 0 ∧
    allocateMemory (initMemory 1024 256) 1 0 .FIRST_FIT
      = (initMemory 1024 256, -1) ∧
    allocateMemory (initMemory 1024 256) 1 1000 .BEST_FIT
      = (initMemory 1024 256, -1) :=
  ⟨le_refl 0,
   claim7_validation.1 (initMemory 1024 256) 1 0 .FIRST_FIT (by decide),
   claim7_validation.2.1 (initMemory 1024 256) 1 1000 .BEST_FIT (by decide)⟩

/-! ## Claim C5: buddy allocate/deallocate round-trip -/

theorem absorb_blockID (a b : MemoryBlock) : (absorb a b).blockID = a.blockID :=
  rfl

theorem update_buddy_self (b : MemoryBlock) (h : b.buddyID = -1) :
    ({ b with buddyID := -1 } : MemoryBlock) = b := by
  cases b
  simp_all

theorem flip_unflip (tj : MemoryBlock) (pid : Int)
    (h1 : tj.isHole = true) (h2 : tj.processID = -1) :
    ({ { tj with isHole := false, processID := pid } with
        isHole := true, processID := -1 } : MemoryBlock) = tj := by
  cases tj
  simp_all

theorem findBuddy_cons_self (t : MemoryBlock) (rest : List MemoryBlock) :
    findBuddy t.blockID (t :: rest) = some (0, t) := by
  rw [findBuddy, if_pos rfl]

theorem mergeScan_pairB (t c : MemoryBlock) (rest : List MemoryBlock)
    (ht : t.isHole = true) (hbid : t.buddyID = -1) (htid : t.blockID ≠ -1)
    (hc : c.isHole = true) (hcb : c.buddyID = t.blockID)
    (hlt : t.startAddress < c.startAddress) :
    mergeScan (t :: c :: rest) = some (absorb t c :: rest) := by
  unfold mergeScan
  have h1 : mergeCandidateGo (t :: c :: rest) 0 (t :: c :: rest)
      = some (1, 0) := by
    rw [mergeCandidateGo, if_neg (by simp [hbid])]
    rw [mergeCandidateGo, if_pos ⟨hc, by rw [hcb]; exact htid⟩]
    rw [hcb, findBuddy_cons_self]
    show (if t.isHole = true then some ((1:Nat), (0:Nat))
      else mergeCandidateGo (t :: c :: rest) 2 rest) = some (1, 0)
    rw [if_pos ht]
  rw [h1]
  simp only [Option.map_some']
  unfold mergeAt
  simp only [List.getElem?_cons_succ, List.getElem?_cons_zero]
  have hnlt : ¬(c.startAddress < t.startAddress) := by omega
  simp only [if_neg hnlt]
  rfl

theorem mergeScan_pairA (t c : MemoryBlock) (rest : List MemoryBlock)
    (ht : t.isHole = true) (htb : t.buddyID = c.blockID)
    (hcid : c.blockID ≠ -1) (hne : t.blockID ≠ c.blockID)
    (hc : c.isHole = true) (hlt : t.startAddress < c.startAddress) :
    mergeScan (t :: c :: rest) = some (absorb t c :: rest) := by
  unfold mergeScan
  have h1 : mergeCandidateGo (t :: c :: rest) 0 (t :: c :: rest)
      = some (0, 1) := by
    rw [mergeCandidateGo, if_pos ⟨ht, by rw [htb]; exact hcid⟩]
    have hfb : findBuddy t.buddyID (t :: c :: rest) = some (1, c) := by
      rw [findBuddy, if_neg (by rw [htb]; exact hne), findBuddy,
        if_pos (by rw [htb])]
      rfl
    rw [hfb]
    show (if c.isHole = true then some ((0:Nat), (1:Nat))
      else mergeCandidateGo (t :: c :: rest) 1 (c :: rest)) = some (0, 1)
    rw [if_pos hc]
  rw [h1]
  simp only [Option.map_some']
  unfold mergeAt
  simp only [List.getElem?_cons_succ, List.getElem?_cons_zero]
  simp only [if_pos hlt]
  rfl

theorem mergeScan_single (t : MemoryBlock) (hbid : t.buddyID = -1) :
    mergeScan [t] = none := by
  unfold mergeScan
  rw [mergeCandidateGo, if_neg (by simp [hbid])]
  rfl

theorem mergeLoop_chainB :
    ∀ (cs : List MemoryBlock) (t : MemoryBlock) (fuel : Nat),
      t.isHole = true → t.buddyID = -1 → t.blockID ≠ -1 →
      t.startAddress ≤ t.endAddress → buddyChainRel t cs →
      cs.length ≤ fuel →
      mergeLoop fuel (t :: cs) = ([List.foldl absorb t cs],
        (cs.length : Int)) := by
  intro cs
  induction cs with
  | nil =>
    intro t fuel ht hbid htid _ _ _
    have hnone := mergeScan_single t hbid
    cases fuel with
    | zero => simp [mergeLoop]
    | succ f => simp [mergeLoop, hnone]
  | cons c cs' ih =>
    intro t fuel ht hbid htid hse hchain hlen
    obtain ⟨hc1, hc2, hc3, hc4, hc5, hc6, hc7⟩ := hchain
    cases fuel with
    | zero => simp at hlen
    | succ f =>
      rw [mergeLoop]
      rw [mergeScan_pairB t c cs' ht hbid htid hc1 hc2 (by omega)]
      have hstep := ih (absorb t c) f (by exact ht) rfl htid
        (by show t.startAddress ≤ c.endAddress; omega) hc7
        (by simpa using hlen)
      simp only
      rw [hstep]
      simp only [List.foldl_cons, List.length_cons]
      refine Prod.ext rfl ?_
      push_cast
      ring

theorem mergeLoop_chainA :
    ∀ (cs' : List MemoryBlock) (t c : MemoryBlock) (fuel : Nat),
      t.isHole = true → t.blockID ≠ -1 →
      t.startAddress ≤ t.endAddress →
      t.buddyID = c.blockID →
      buddyChainRel t (c :: cs') →
      cs'.length + 1 ≤ fuel →
      mergeLoop fuel (t :: c :: cs') =
        ([List.foldl absorb t (c :: cs')], (cs'.length : Int) + 1) := by
  intro cs' t c fuel ht htid hse htb hchain hlen
  obtain ⟨hc1, hc2, hc3, hc4, hc5, hc6, hc7⟩ := hchain
  cases fuel with
  | zero => simp at hlen
  | succ f =>
    rw [mergeLoop]
    rw [mergeScan_pairA t c cs' ht htb hc4 (fun h => hc3 h.symm) hc1 (by omega)]
    have hstep := mergeLoop_chainB cs' (absorb t c) f (by exact ht) rfl htid
      (by show t.startAddress ≤ c.endAddress; omega) hc7
      (by omega)
    simp only
    rw [hstep]
    simp only [List.foldl_cons]

theorem buddyChainRel_append_one :
    ∀ (cs : List MemoryBlock) (s c : MemoryBlock),
      buddyChainRel s cs →
      c.isHole = true → c.buddyID = s.blockID → c.blockID ≠ s.blockID →
      c.blockID ≠ -1 →
      (List.foldl absorb s cs).endAddress + 1 = c.startAddress →
      c.startAddress ≤ c.endAddress →
      buddyChainRel s (cs ++ [c]) := by
  intro cs
  induction cs with
  | nil =>
    intro s c _ h1 h2 h3 h4 h5 h6
    exact ⟨h1, h2, h3, h4, by simpa using h5, h6, trivial⟩
  | cons d cs' ih =>
    intro s c hchain h1 h2 h3 h4 h5 h6
    obtain ⟨hd1, hd2, hd3, hd4, hd5, hd6, hd7⟩ := hchain
    refine ⟨hd1, hd2, hd3, hd4, hd5, hd6, ?_⟩
    exact ih (absorb s d) c hd7 h1 h2 h3 h4 (by simpa using h5) h6

theorem splitLoop_spec :
    ∀ (j : Nat) (alloc : Int) (t : MemoryBlock) (tail : List MemoryBlock)
      (nid : Int) (fuel : Nat),
      1 ≤ alloc →
      t.isHole = true → t.processID = -1 → t.blockID ≠ -1 →
      t.blockID < nid → -1 < nid →
      t.size = 2 ^ j * alloc →
      t.size = t.endAddress - t.startAddress + 1 →
      j ≤ fuel →
      ∃ (tj : MemoryBlock) (cs : List MemoryBlock),
        splitLoop alloc fuel t tail nid =
          ⟨tj, cs ++ tail, nid + (j : Int), (j : Int)⟩ ∧
        tj.isHole = true ∧ tj.processID = -1 ∧ tj.blockID = t.blockID ∧
        tj.startAddress = t.startAddress ∧
        tj.size = alloc ∧ tj.size = tj.endAddress - tj.startAddress + 1 ∧
        ((cs = [] ∧ tj = t) ∨
          (∃ c cs', cs = c :: cs' ∧ tj.buddyID = c.blockID ∧
            buddyChainRel tj cs ∧
            List.foldl absorb tj cs = { t with buddyID := -1 })) := by
  intro j
  induction j with
  | zero =>
    intro alloc t tail nid fuel halloc ht hpid htid htn hn hsz hcons hfuel
    have hsz0 : t.size = alloc := by simpa using hsz
    have hresult : splitLoop alloc fuel t tail nid = ⟨t, tail, nid, 0⟩ := by
      cases fuel with
      | zero => rfl
      | succ f =>
        rw [splitLoop, if_neg (by omega)]
    refine ⟨t, [], ?_, ht, hpid, rfl, rfl, hsz0, hcons, Or.inl ⟨rfl, rfl⟩⟩
    rw [hresult]
    simp
  | succ j ih =>
    intro alloc t tail nid fuel halloc ht hpid htid htn hn hsz hcons hfuel
    have hpow0 : (0:Int) < 2 ^ j := by positivity
    have hhalf : t.size / 2 = 2 ^ j * alloc := by
      rw [hsz]
      have h2 : (2:Int) ^ (j + 1) * alloc = 2 * (2 ^ j * alloc) := by ring
      rw [h2]
      exact Int.mul_ediv_cancel_left _ (by norm_num)
    have h2half : t.size = t.size / 2 + t.size / 2 := by
      rw [hhalf, hsz]
      ring
    have halele : alloc ≤ 2 ^ j * alloc := le_mul_of_one_le_left (by omega)
      (by omega)
    have hhalfpos : 1 ≤ t.size / 2 := by omega
    have hgt : alloc < t.size := by omega
    cases fuel with
    | zero => omega
    | succ f =>
      have hstep : splitLoop alloc (f + 1) t tail nid =
          { splitLoop alloc f (splitStep t nid).1
              ((splitStep t nid).2 :: tail) (nid + 1) with
            splits := (splitLoop alloc f (splitStep t nid).1
              ((splitStep t nid).2 :: tail) (nid + 1)).splits + 1 } := by
        rw [splitLoop, if_pos hgt]
      obtain ⟨tj, cs, heq, hj1, hj2, hj3, hj4, hj5, hj6, hshape⟩ :=
        ih alloc (splitStep t nid).1 ((splitStep t nid).2 :: tail) (nid + 1) f
          halloc (by exact ht) (by exact hpid) (by exact htid)
          (by show t.blockID < nid + 1; omega) (by omega)
          (by exact hhalf)
          (by
            show t.size / 2 =
              t.startAddress + t.size / 2 - 1 - t.startAddress + 1
            omega)
          (by omega)
      have hj3' : tj.blockID = t.blockID := by exact hj3
      have hj4' : tj.startAddress = t.startAddress := by exact hj4
      have habsorb : absorb { (splitStep t nid).1 with buddyID := -1 }
          (splitStep t nid).2 = { t with buddyID := -1 } := by
        show MemoryBlock.mk t.isHole t.startAddress t.endAddress
            (t.endAddress - t.startAddress + 1) t.processID t.blockID (-1) =
          MemoryBlock.mk t.isHole t.startAddress t.endAddress t.size
            t.processID t.blockID (-1)
        rw [hcons]
      refine ⟨tj, cs ++ [(splitStep t nid).2], ?_, hj1, hj2, hj3', hj4',
        hj5, hj6, ?_⟩
      · rw [hstep, heq]
        show SplitResult.mk tj (cs ++ (splitStep t nid).2 :: tail)
            (nid + 1 + (j : Int)) ((j : Int) + 1) = _
        have hl : cs ++ (splitStep t nid).2 :: tail =
            (cs ++ [(splitStep t nid).2]) ++ tail := by simp
        rw [hl]
        have hnid : nid + 1 + (j : Int) = nid + ((j + 1 : Nat) : Int) := by
          push_cast
          ring
        have hspl : ((j : Nat) : Int) + 1 = ((j + 1 : Nat) : Int) := by
          push_cast
          ring
        rw [hnid, hspl]
      · have hb2free : (splitStep t nid).2.isHole = true := rfl
        have hb2ne : (splitStep t nid).2.blockID ≠ tj.blockID := by
          rw [hj3']
          show nid ≠ t.blockID
          omega
        have hb2nm : (splitStep t nid).2.blockID ≠ -1 := by
          show nid ≠ -1
          omega
        have hb2se : (splitStep t nid).2.startAddress ≤
            (splitStep t nid).2.endAddress := by
          show t.startAddress + t.size / 2 ≤ t.endAddress
          omega
        have hb2buddy : (splitStep t nid).2.buddyID = tj.blockID := by
          rw [hj3']
          rfl
        rcases hshape with ⟨hcs, htj⟩ | ⟨c, cs', hcs, hbud, hchain, hfold⟩
        · subst hcs
          subst htj
          refine Or.inr ⟨(splitStep t nid).2, [], rfl, rfl, ?_, ?_⟩
          · refine ⟨hb2free, hb2buddy, hb2ne, hb2nm, ?_, hb2se, trivial⟩
            show t.startAddress + t.size / 2 - 1 + 1 =
              t.startAddress + t.size / 2
            omega
          · exact habsorb
        · subst hcs
          refine Or.inr ⟨c, cs' ++ [(splitStep t nid).2], by simp, hbud,
            ?_, ?_⟩
          · refine buddyChainRel_append_one (c :: cs') tj (splitStep t nid).2
              hchain hb2free hb2buddy hb2ne hb2nm ?_ hb2se
            rw [hfold]
            show t.startAddress + t.size / 2 - 1 + 1 =
              t.startAddress + t.size / 2
            omega
          · rw [List.foldl_append, hfold]
            exact habsorb

/-- Claim C5: in buddy mode, starting from a Ledger holding a single free
block (of power-of-two size, with no recorded buddy), a `buddyAllocate` of
any size S whose power-of-two ceiling fits in the block, immediately
followed by `buddyDeallocate` of the auto-assigned owner, returns the
Ledger to its pre-allocation shape: the original single free block. -/
theorem claim5_buddy_roundtrip (mm : MemoryManager) (b : MemoryBlock)
    (S : Int) (a k : ℕ)
    (hblocks : mm.blocks = [b])
    (hfree : b.isHole = true) (hpid : b.processID = -1)
    (hbuddy : b.buddyID = -1) (hbid : b.blockID ≠ -1)
    (hbidlt : b.blockID < mm.nextBlockID) (hnid : -1 < mm.nextBlockID)
    (hsize : b.size = 2 ^ k)
    (hcons : b.size = b.endAddress - b.startAddress + 1)
    (halloc : nextPowerOf2 S = 2 ^ a) (hak : a ≤ k) :
    (buddyDeallocate (buddyAllocate mm S).1 (mm.processCounter + 1)).1.blocks
      = mm.blocks ∧
    (buddyDeallocate (buddyAllocate mm S).1 (mm.processCounter + 1)).2
      = 1 := by
  have hones : (1:Int) ≤ 2 ^ a := by
    have h0 : (0:Int) < 2 ^ a := by positivity
    omega
  have honek : (1:Int) ≤ 2 ^ k := by
    have h0 : (0:Int) < 2 ^ k := by positivity
    omega
  have hsz' : b.size = 2 ^ (k - a) * 2 ^ a := by
    rw [hsize, ← pow_add]
    congr 1
    omega
  have hfuel : k - a ≤ b.size.toNat := by
    rw [hsize]
    have hcast : ((2:Int) ^ k).toNat = 2 ^ k := by
      rw [show (2:Int) ^ k = ((2 ^ k : ℕ) : ℤ) from by push_cast; ring]
      exact Int.toNat_natCast _
    rw [hcast]
    have hk2 : k < 2 ^ k := Nat.lt_two_pow k
    omega
  obtain ⟨tj, cs, heq, hj1, hj2, hj3, hj4, hj5, hj6, hshape⟩ :=
    splitLoop_spec (k - a) (2 ^ a) b [] mm.nextBlockID b.size.toNat hones
      hfree hpid hbid hbidlt hnid hsz' hcons hfuel
  have hle : nextPowerOf2 S ≤ b.size := by
    rw [halloc, hsize]
    exact pow_le_pow_right₀ (by norm_num) hak
  have hg : buddyAllocGo (nextPowerOf2 S) (mm.processCounter + 1)
      mm.nextBlockID [b] =
      some ({ tj with isHole := false,
                      processID := mm.processCounter + 1 } :: cs,
        tj.startAddress, mm.nextBlockID + ((k - a : ℕ) : Int),
        ((k - a : ℕ) : Int), tj.size) := by
    rw [buddyAllocGo, if_pos ⟨hfree, hle⟩, halloc, heq]
    simp only [List.append_nil]
  have hb1 : (buddyAllocate mm S).1.blocks =
      { tj with isHole := false,
                processID := mm.processCounter + 1 } :: cs := by
    unfold buddyAllocate
    simp only
    rw [hblocks, hg]
  have hflip : buddyDeallocGo (mm.processCounter + 1)
      ({ tj with isHole := false, processID := mm.processCounter + 1 } :: cs)
      = some (tj :: cs, tj.size) := by
    rw [buddyDeallocGo, if_pos ⟨rfl, rfl⟩]
    rw [flip_unflip tj (mm.processCounter + 1) hj1 hj2]
  have hloop : mergeLoop (tj :: cs).length (tj :: cs)
      = ([b], (cs.length : Int)) := by
    rcases hshape with ⟨hcs, htj⟩ | ⟨c, cs', hcs, hbud, hchain, hfold⟩
    · subst hcs
      subst htj
      show mergeLoop 1 [tj] = ([tj], 0)
      rw [mergeLoop, mergeScan_single tj hbuddy]
    · subst hcs
      have hse : tj.startAddress ≤ tj.endAddress := by omega
      have hA := mergeLoop_chainA cs' tj c ((tj :: c :: cs').length) hj1
        (by rw [hj3]; exact hbid) hse hbud hchain (by simp)
      rw [hA, hfold, update_buddy_self b hbuddy]
      refine Prod.ext rfl ?_
      simp
  have hstep : ∀ (M : MemoryManager),
      M.blocks = ({ tj with isHole := false,
                            processID := mm.processCounter + 1 } :: cs) →
      (buddyDeallocate M (mm.processCounter + 1)).1.blocks = [b] ∧
      (buddyDeallocate M (mm.processCounter + 1)).2 = 1 := by
    intro M hM
    unfold buddyDeallocate
    rw [hM, hflip]
    simp only
    rw [hloop]
    exact ⟨rfl, trivial⟩
  have happ := hstep (buddyAllocate mm S).1 hb1
  rw [hblocks]
  exact happ

/-- Witness for C5: on the fresh 256-sized buddy region, a buddyAllocate of
size 50 followed by buddyDeallocate of the auto-assigned owner restores the
single original free block, and the deallocation reports success. -/
theorem claim5_buddy_roundtrip_witness :
    (buddyDeallocate
        (buddyAllocate (convertToBuddySystem (initMemory 512 256)) 50).1
        ((convertToBuddySystem (initMemory 512 256)).processCounter + 1)).1.blocks
      = (convertToBuddySystem (initMemory 512 256)).blocks ∧
    (buddyDeallocate
        (buddyAllocate (convertToBuddySystem (initMemory 512 256)) 50).1
        ((convertToBuddySystem (initMemory 512 256)).processCounter + 1)).2
      = 1 :=
  claim5_buddy_roundtrip (convertToBuddySystem (initMemory 512 256))
    ⟨true, 256, 511, 256, -1, 2, -1⟩ 50 6 8
    (by decide) (by decide) (by decide) (by decide) (by decide)
    (by decide) (by decide) (by decide) (by decide) (by decide) (by decide)

end MemSim
